import Mathlib

/-!
Verification of the procedural level-graph generator of `src/level.rs`
(point sampler, proximity-graph builder, level assembler, field rasterizer).

Modelling conventions, kept uniform below:

* 2D points are pairs of rationals (`Pt`); the source uses `f32`/`Vec2`.
  Exact rational arithmetic abstracts the float rounding, which no claim
  is about.
* Edge weights: the source stores the Euclidean distance `sqrt(d2)` as the
  weight of a graph edge.  The model stores the squared distance `w2` and
  interprets the stored weight as `Real.sqrt w2` (`edgeWeight`).  Every
  operation the source performs on weights (comparisons while sorting,
  minimum-spanning-tree selection) is monotone under squaring, so the
  squared representation is behaviour-preserving and keeps the model
  computable on rational inputs.
* Sorting: the source sorts with `sort_by`/`BinaryHeap::into_sorted_vec`.
  The model uses a stable insertion sort (`isort`) with the corresponding
  comparison; on tie-free inputs (all inputs appearing in theorems below)
  any comparison sort agrees with it.
-/

namespace LevelGen

/-- A 2D point with rational coordinates (the source uses `Vec2` of `f32`). -/
abbrev Pt := ℚ × ℚ

/-- Squared Euclidean distance between two points (`Vec2::distance_squared`). -/
def sqDist (p q : Pt) : ℚ := (p.1 - q.1) ^ 2 + (p.2 - q.2) ^ 2

/-- A weighted undirected edge between node indices; `w2` is the squared
Euclidean weight (the source stores `sqrt w2`, see `edgeWeight`). -/
structure Edge where
  src : ℕ
  tgt : ℕ
  w2 : ℚ
deriving DecidableEq

/-- Interpretation of the stored edge weight: the source stores the
Euclidean distance between the points that produced `w2`. -/
noncomputable def edgeWeight (e : Edge) : ℝ := Real.sqrt (e.w2 : ℝ)

/-- Canonical (sorted) form of an unordered pair of node indices. -/
def canonN (p : ℕ × ℕ) : ℕ × ℕ := if p.1 ≤ p.2 then p else (p.2, p.1)

/-- The unordered pair of endpoints of an edge, canonically ordered. -/
def canonPair (e : Edge) : ℕ × ℕ := canonN (e.src, e.tgt)

/-- An undirected weighted graph with positions as node weights, the model of
`petgraph::Graph<Vec2, f32, Undirected>`: node `i` has position `nodes[i]`. -/
structure WGraph where
  nodes : List Pt
  edges : List Edge
deriving DecidableEq

/-- Position of node `k` of a graph (`Graph::node_weight`, total with default). -/
def nodeAt (g : WGraph) (k : ℕ) : Pt := g.nodes.getD k (0, 0)

/-! ### Stable insertion sort

The source sorts candidate edge lists (`sort_by` on weights) and candidate
stitch pairs (`BinaryHeap::into_sorted_vec`).  `isort le` sorts ascending
w.r.t. the boolean comparison `le` and is stable. -/

/-- Insert an element into a sorted list, before the first element it
compares `le` to. -/
def insertSorted (le : α → α → Bool) (a : α) : List α → List α
  | [] => [a]
  | b :: bs => if le a b then a :: b :: bs else b :: insertSorted le a bs

/-- Stable insertion sort by the boolean comparison `le`. -/
def isort (le : α → α → Bool) : List α → List α
  | [] => []
  | a :: as => insertSorted le a (isort le as)

/-! ### The Gabriel step (`fn gabriel`, level.rs:66-88)

The source clones the Delaunay graph, marks every edge whose diametral
circle check fires for some node other than its endpoints (the check is
`mid.distance(point) <= radius`, a NON-strict comparison), and removes the
marked edge ids in reverse order.  Removing a set of edge ids in reverse
id order leaves exactly the unmarked edges, so the model is a filter.
The source compares Euclidean distances of `f32`; on nonnegative reals
`dist mid p <= dist p1 p2 / 2` is equivalent to the squared comparison
`sqDist mid p <= sqDist p1 p2 / 4` used by the computable model. -/

/-- Midpoint of two points (`(p1 + p2) * 0.5`). -/
def midPt (p q : Pt) : Pt := ((p.1 + q.1) / 2, (p.2 + q.2) / 2)

/-- Does the diametral-circle check of `fn gabriel` fire for edge `e`:
is there a node, other than the edge's endpoints, whose distance to the
edge midpoint is at most half the edge length? -/
def gabrielMarked (g : WGraph) (e : Edge) : Bool :=
  (List.range g.nodes.length).any fun k =>
    decide (k ≠ e.src) && decide (k ≠ e.tgt) &&
      decide (sqDist (midPt (nodeAt g e.src) (nodeAt g e.tgt)) (nodeAt g k) ≤
        sqDist (nodeAt g e.src) (nodeAt g e.tgt) / 4)

/-- The Gabriel subgraph computed by `fn gabriel`: the input graph with all
marked edges removed. -/
def gabrielOf (g : WGraph) : WGraph :=
  ⟨g.nodes, g.edges.filter fun e => !gabrielMarked g e⟩

/-- Euclidean distance between two rational points, as a real. -/
noncomputable def euclDist (p q : Pt) : ℝ := Real.sqrt ((sqDist p q : ℚ) : ℝ)

/-- Spec-side predicate: some node other than the endpoints of `e` lies
STRICTLY inside the diametral circle of `e` (circle centered at the edge
midpoint with radius half the edge length). -/
def strictInDiametral (g : WGraph) (e : Edge) : Prop :=
  ∃ k < g.nodes.length, k ≠ e.src ∧ k ≠ e.tgt ∧
    euclDist (midPt (nodeAt g e.src) (nodeAt g e.tgt)) (nodeAt g k) <
      euclDist (nodeAt g e.src) (nodeAt g e.tgt) / 2

/-- Spec-side predicate (amended): some node other than the endpoints of `e`
lies inside or ON the closed diametral disk of `e`. -/
def closedInDiametral (g : WGraph) (e : Edge) : Prop :=
  ∃ k < g.nodes.length, k ≠ e.src ∧ k ≠ e.tgt ∧
    euclDist (midPt (nodeAt g e.src) (nodeAt g e.tgt)) (nodeAt g k) ≤
      euclDist (nodeAt g e.src) (nodeAt g e.tgt) / 2

/-- A concrete Delaunay-style triangle graph: nodes `(0,0), (2,0), (1,1)` with
the three triangle edges.  Node 2 lies exactly ON the diametral circle of the
edge between nodes 0 and 1 (distance to midpoint = 1 = half the edge length). -/
def G6 : WGraph :=
  ⟨[(0, 0), (2, 0), (1, 1)], [⟨0, 1, 4⟩, ⟨1, 2, 2⟩, ⟨0, 2, 2⟩]⟩

/-! ### Delaunay half-edge extraction (`fn delaunay`, level.rs:26-64)

The source feeds the points to `delaunator::triangulate` (an external crate)
and then walks the returned `triangles` / `halfedges` arrays, turning
half-edges into undirected graph edges.  The walk itself is repository code
and is modelled here over arbitrary `triangles` / `halfedges` data; the
properties of a valid delaunator output (twin involution, twin reversal,
distinct undirected edges) appear as explicit hypotheses. -/

/-- The `delaunator::EMPTY` sentinel (`usize::MAX`), marking a half-edge
without a twin (a convex-hull half-edge). -/
def EMPTY : ℕ := 2 ^ 64 - 1

/-- Model of `delaunator::next_halfedge`. -/
def nextHalfedge (i : ℕ) : ℕ := if i % 3 = 2 then i - 2 else i + 1

/-- Twin half-edge of `i` in the `halfedges` array. -/
def heTwin (halfedges : List ℕ) (i : ℕ) : ℕ := halfedges.getD i 0

/-- The skip condition of the loop at level.rs:45: the half-edge is skipped
(`continue`) when `i <= halfedges[i] && halfedges[i] != EMPTY`. -/
def heSkip (halfedges : List ℕ) (i : ℕ) : Bool :=
  decide (i ≤ heTwin halfedges i) && decide (heTwin halfedges i ≠ EMPTY)

/-- The unordered endpoint pair represented by half-edge `i`. -/
def ePair (triangles : List ℕ) (i : ℕ) : ℕ × ℕ :=
  canonN (triangles.getD i 0, triangles.getD (nextHalfedge i) 0)

/-- The graph built by `fn delaunay` from the triangulation arrays: one edge
per non-skipped half-edge, from `triangles[i]` to `triangles[next_halfedge(i)]`,
weighted by the Euclidean distance between the two node positions
(stored squared, see `edgeWeight`). -/
def delaunayOf (points : List Pt) (triangles halfedges : List ℕ) : WGraph :=
  ⟨points,
    ((List.range halfedges.length).filter fun i => !heSkip halfedges i).map fun i =>
      { src := triangles.getD i 0
        tgt := triangles.getD (nextHalfedge i) 0
        w2 := sqDist (points.getD (triangles.getD i 0) (0, 0))
          (points.getD (triangles.getD (nextHalfedge i) 0) (0, 0)) }⟩

/-- Concrete triangulation data of a single triangle: all three half-edges
are hull half-edges (twin = `EMPTY`). -/
def tri3 : List ℕ := [0, 1, 2]

/-- Half-edge array of the single triangle: every twin is the sentinel. -/
def he3 : List ℕ := [EMPTY, EMPTY, EMPTY]

/-- Bundled well-formedness of delaunator output (true of every valid
triangulation): `halfedges` and `triangles` have equal length divisible by 3
and below the sentinel; a non-sentinel twin is a distinct in-range half-edge
that is an involution and represents the same unordered endpoint pair; and
two half-edges represent the same unordered pair only if they are equal or
twins. -/
structure HeWf (triangles halfedges : List ℕ) : Prop where
  hlen : halfedges.length = triangles.length
  hE : triangles.length < EMPTY
  htw : ∀ i < triangles.length, heTwin halfedges i = EMPTY ∨
    (heTwin halfedges i < triangles.length ∧ heTwin halfedges i ≠ i ∧
      heTwin halfedges (heTwin halfedges i) = i ∧
      ePair triangles (heTwin halfedges i) = ePair triangles i)
  hinj : ∀ i < triangles.length, ∀ j < triangles.length,
    ePair triangles i = ePair triangles j → j = i ∨ j = heTwin halfedges i

/-- Triangulation data of two triangles sharing the edge between nodes 0 and
1: `(0,1,2)` and `(1,0,3)`.  Half-edges 0 and 3 are twins; the rest are hull
half-edges. -/
def tri6 : List ℕ := [0, 1, 2, 1, 0, 3]

/-- Half-edge twins of `tri6`. -/
def he6 : List ℕ := [3, EMPTY, EMPTY, 0, EMPTY, EMPTY]

/-! ### Proximity graph builder (`fn graph`, level.rs:90-119)

The source computes the Gabriel subgraph and a minimum spanning tree of the
Delaunay graph (`petgraph::algo::min_spanning_tree`, Kruskal: edges sorted
by ascending weight, kept when they join two distinct components), replaces
the graph's edges by the MST edges, sorts the Gabriel edges by descending
weight and inserts them (`update_edge`: insert if absent, otherwise update
the weight) until the edge count reaches
`mst_count + (ratio * (gabriel_count - mst_count)) as usize`. -/

/-- List of canonical endpoint pairs of an edge list. -/
def pairList (es : List Edge) : List (ℕ × ℕ) := es.map canonPair

/-- Edges sorted by ascending weight (comparisons of `sqrt` weights agree
with comparisons of the stored squared weights). -/
def sortAscW2 (es : List Edge) : List Edge := isort (fun a b => decide (a.w2 ≤ b.w2)) es

/-- Edges sorted by descending weight (`all_edges.sort_by` at level.rs:106). -/
def sortDescW2 (es : List Edge) : List Edge := isort (fun a b => decide (b.w2 ≤ a.w2)) es

/-- Representative of the union-find component of node `i`. -/
def ufFind (uf : List ℕ) (i : ℕ) : ℕ := uf.getD i i

/-- Merge component `b` into component `a`. -/
def ufUnion (uf : List ℕ) (a b : ℕ) : List ℕ := uf.map fun c => if c = b then a else c

/-- Kruskal scan over weight-sorted edges: keep an edge iff its endpoints are
currently in distinct components. -/
def kruskalGo : List Edge → List ℕ → List Edge
  | [], _ => []
  | e :: rest, uf =>
    if ufFind uf e.src = ufFind uf e.tgt then kruskalGo rest uf
    else e :: kruskalGo rest (ufUnion uf (ufFind uf e.src) (ufFind uf e.tgt))

/-- Minimum spanning tree of a weighted graph (`min_spanning_tree`). -/
def mstOf (g : WGraph) : List Edge := kruskalGo (sortAscW2 g.edges) (List.range g.nodes.length)

/-- Model of `petgraph`'s `update_edge` on an undirected graph: if an edge
between the two endpoints exists its weight is updated, otherwise the edge
is appended. -/
def updateEdge (acc : List Edge) (e : Edge) : List Edge :=
  if acc.any fun f => decide (canonPair f = canonPair e) then
    acc.map fun f => if canonPair f = canonPair e then { f with w2 := e.w2 } else f
  else acc ++ [e]

/-- The retention loop at level.rs:111-116: insert pending edges until the
edge count reaches `target` (checked before each insertion). -/
def insertEdges (target : ℕ) : List Edge → List Edge → List Edge
  | [], acc => acc
  | e :: rest, acc =>
    if target ≤ acc.length then acc else insertEdges target rest (updateEdge acc e)

/-- The proximity graph built by `fn graph` from the Delaunay graph `g` and
the fill ratio. -/
def buildGraph (g : WGraph) (ratio : ℚ) : WGraph :=
  let mst := mstOf g
  let allEdges := sortDescW2 (gabrielOf g).edges
  let target := mst.length + (⌊ratio * ((allEdges.length - mst.length : ℕ) : ℚ)⌋).toNat
  ⟨g.nodes, insertEdges target allEdges mst⟩

/-- A concrete Delaunay-style graph: the unit-square-like quad with four side
edges and one diagonal (the diagonal fails the Gabriel test: each opposite
corner is exactly on its diametral circle). -/
def GC3 : WGraph :=
  ⟨[(0, 0), (10, 0), (10, 10), (0, 10)],
    [⟨0, 1, 100⟩, ⟨1, 2, 100⟩, ⟨2, 3, 100⟩, ⟨3, 0, 100⟩, ⟨0, 2, 200⟩]⟩

/-! ### Level assembler (`LevelBuilder`, level.rs:371-483)

`LevelBuilder::add` translates a part's node positions by the offset,
appends them to the global graph (indices shifted by the node count before
the insertion), appends the part's internal edges, stitches the part to the
already-placed structure through the spatial index `kd_terrain`, and then
rasterizes the part's edges into `kd_terrain` (one index entry every 5 world
units along each edge, tagged with the nearer endpoint's global node index,
plus one entry at the target endpoint). -/

/-- An assembled level part (`LevelPart`): its internal graph and bounds.
The biome tag plays no role in the claims below. -/
structure PartG where
  nodes : List Pt
  edges : List Edge
  bmin : Pt
  bmax : Pt

/-- One entry of the `kiddo` spatial index: a position and a `u64` payload
(a global node index). -/
structure KdEntry where
  pos : Pt
  item : ℕ
deriving DecidableEq

/-- One result of a nearest-neighbour query: squared distance and payload. -/
structure Nbr where
  d2 : ℚ
  item : ℕ
deriving DecidableEq

/-- kiddo's `nearest_n::<SquaredEuclidean>`: the `k` index entries closest to
the query point, ascending by squared distance (ties broken by payload, a
modelling choice; every concrete input below is tie-free). -/
def nearestN (kd : List KdEntry) (k : ℕ) (q : Pt) : List Nbr :=
  (isort (fun a b => decide (a.d2 < b.d2 ∨ (a.d2 = b.d2 ∧ a.item ≤ b.item)))
    (kd.map fun en => { d2 := sqDist q en.pos, item := en.item })).take k

/-- The largest finite `f32` (`f32::MAX`), used by `LevelBuilder::new` as the
empty-bounds sentinel. -/
def F32MAX : ℚ := 2 ^ 128 - 2 ^ 104

/-- The accumulating state of a `LevelBuilder`. -/
structure BState where
  nodes : List Pt
  edges : List Edge
  kd : List KdEntry
  bmin : Pt
  bmax : Pt

/-- Model of `LevelBuilder::new`. -/
def initState : BState := ⟨[], [], [], (F32MAX, F32MAX), (-F32MAX, -F32MAX)⟩

/-- Translation by an offset (`*point += offset`). -/
def translate (o p : Pt) : Pt := (p.1 + o.1, p.2 + o.2)

/-- Index-shifted copy of an edge (the `+ idx_offset` reindexing in `add`). -/
def shiftE (n0 : ℕ) (e : Edge) : Edge := { e with src := e.src + n0, tgt := e.tgt + n0 }

/-- Rational square root: `some r` with `r * r = q` when `q` is a perfect
square of a rational, `none` otherwise. -/
def ratSqrt (q : ℚ) : Option ℚ :=
  if 0 ≤ q.num ∧ (q.num.toNat.sqrt : ℤ) * q.num.toNat.sqrt = q.num ∧
      q.den.sqrt * q.den.sqrt = q.den then
    some ((q.num.toNat.sqrt : ℚ) / (q.den.sqrt : ℚ))
  else none

/-- Sample indices of the rasterization loop at level.rs:446-461 for an edge
of squared length `d2`: the k-th sample sits at arc parameter `5 k` from the
source, and the loop runs while its squared distance to the source, `25 k^2`,
is below `d2` (`dist2_source >= dist2` breaks).  The range bound `⌈d2⌉ + 1`
only needs to cover every such `k`. -/
def sampleKs (d2 : ℚ) : List ℕ :=
  (List.range (⌈d2⌉.toNat + 1)).filter fun k => decide (25 * (k : ℚ) ^ 2 < d2)

/-- Position of the k-th sample on the edge from `s` to `t`.  The source
steps `point += step` with `step = (t - s).normalize_or_zero() * 5.0`, so in
exact arithmetic the k-th sample is `s + (5k / |t-s|) * (t - s)`, exactly
representable iff the edge length is rational.  On an irrational-length edge
the model stores the source endpoint instead; no theorem below inspects the
position of a sample of an irrational-length edge (the claims that inspect
positions are settled on rational-length configurations, where the model is
exact). -/
def samplePos (s t : Pt) (d2 : ℚ) (k : ℕ) : Pt :=
  match ratSqrt d2 with
  | some d => if d = 0 then s else
      (s.1 + 5 * k / d * (t.1 - s.1), s.2 + 5 * k / d * (t.2 - s.2))
  | none => s

/-- The spatial-index entries added for one part edge with (translated)
endpoints `s`, `t` and global node indices `gs`, `gt`: one entry per sample,
tagged with the nearer endpoint (the source's comparison
`dist2_source < dist2_target` is `100 k^2 < d2` in exact arithmetic for a
point on the segment), plus the final unconditional entry at the target
(level.rs:462-465). -/
def kdSamplesEdge (s t : Pt) (gs gt : ℕ) : List KdEntry :=
  ((sampleKs (sqDist s t)).map fun k =>
    { pos := samplePos s t (sqDist s t) k
      item := if 100 * (k : ℚ) ^ 2 < sqDist s t then gs else gt }) ++
    [{ pos := t, item := gt }]

/-- Comparison by which `BinaryHeap<(NearestNeighbour, usize)>` sorts the
candidate pairs: ascending by distance, then by the global node index. -/
def cpLE (a b : Nbr × ℕ) : Bool :=
  decide (a.1.d2 < b.1.d2 ∨ (a.1.d2 = b.1.d2 ∧ a.2 ≤ b.2))

/-- The sorted candidate cross-part pairs of `LevelBuilder::add`
(level.rs:421-431): for every node of the new part (translated), the two
nearest entries of the spatial index, all collected and sorted ascending. -/
def closestPairs (st : BState) (offset : Pt) (part : PartG) : List (Nbr × ℕ) :=
  isort cpLE
    ((part.nodes.map (translate offset)).enum.flatMap fun pi =>
      (nearestN st.kd 2 pi.2).map fun nb => (nb, pi.1 + st.nodes.length))

/-- The stitch edges of `LevelBuilder::add` (level.rs:433-439): the first two
candidate pairs, each an edge from the new node to the matched entry's node,
weighted by the distance from the new node to the matched SAMPLE position
(`neighbour.distance.sqrt()`; stored squared here). -/
def stitchEdges (st : BState) (offset : Pt) (part : PartG) : List Edge :=
  ((closestPairs st offset part).take 2).map fun pr =>
    { src := pr.2, tgt := pr.1.item, w2 := pr.1.d2 }

/-- Componentwise minimum. -/
def minPt (p q : Pt) : Pt := (min p.1 q.1, min p.2 q.2)

/-- Componentwise maximum. -/
def maxPt (p q : Pt) : Pt := (max p.1 q.1, max p.2 q.2)

/-- Model of `LevelBuilder::add` (level.rs:394-470). -/
def addPart (st : BState) (offset : Pt) (part : PartG) : BState :=
  let n0 := st.nodes.length
  let newNodes := part.nodes.map (translate offset)
  { nodes := st.nodes ++ newNodes
    edges := st.edges ++ part.edges.map (shiftE n0) ++ stitchEdges st offset part
    kd := st.kd ++ part.edges.flatMap fun e =>
      kdSamplesEdge (newNodes.getD e.src (0, 0)) (newNodes.getD e.tgt (0, 0))
        (e.src + n0) (e.tgt + n0)
    bmin := minPt st.bmin (translate offset part.bmin)
    bmax := maxPt st.bmax (translate offset part.bmax) }

/-- A sequence of `add` calls on a fresh builder. -/
def addAll (st : BState) (parts : List (Pt × PartG)) : BState :=
  parts.foldl (fun s pr => addPart s pr.1 pr.2) st

/-- Adjacency in an edge list (edges are undirected). -/
def adjacent (edges : List Edge) (i j : ℕ) : Prop :=
  ∃ e ∈ edges, (e.src = i ∧ e.tgt = j) ∨ (e.src = j ∧ e.tgt = i)

/-- Graph-reachability through an edge list. -/
def connTo (edges : List Edge) : ℕ → ℕ → Prop := Relation.ReflTransGen (adjacent edges)

/-- Connectivity of the graph on nodes `0, ..., n-1`: every node reaches
every other node. -/
def ConnectedG (n : ℕ) (edges : List Edge) : Prop := ∀ i < n, ∀ j < n, connTo edges i j

/-- Well-formedness of a part as the connectivity claim needs it: non-empty,
edge endpoints in range, and internally connected (the MST step of the part
builder guarantees internal connectivity whenever triangulation succeeds). -/
structure GoodPart (p : PartG) : Prop where
  hne : p.nodes ≠ []
  hwf : ∀ e ∈ p.edges, e.src < p.nodes.length ∧ e.tgt < p.nodes.length
  hconn : ConnectedG p.nodes.length p.edges

/-- The assembly invariant: the global graph is connected, every spatial
index payload is a valid global node index, and the index is non-empty as
soon as a node exists. -/
def Inv (st : BState) : Prop :=
  ConnectedG st.nodes.length st.edges ∧
  (∀ en ∈ st.kd, en.item < st.nodes.length) ∧
  (st.nodes ≠ [] → st.kd ≠ [])

/-- A one-node part with no edges (an explicit single-point part is legal for
the builder and is internally connected: its graph trivially contains its
spanning tree, which is empty). -/
def partSingle : PartG := ⟨[(0, 0)], [], (-25, -25), (25, 25)⟩

/-- A two-node part with one edge. -/
def partPair : PartG := ⟨[(0, 0), (1, 0)], [⟨0, 1, 1⟩], (-25, -25), (25, 25)⟩

/-- First part of the C2 counterexample: two nodes 10 apart with one edge.
Its rasterization puts three entries into the spatial index: the source
sample `(0,0) ↦ node 0`, the midpoint sample `(5,0) ↦ node 1` (the nearer
endpoint at parameter 5 of 10 is the target), and the target `(10,0) ↦ 1`. -/
def partC2a : PartG := ⟨[(0, 0), (10, 0)], [⟨0, 1, 100⟩], (-25, -25), (25, 25)⟩

/-- Second part of the C2 counterexample: a node at `(4,3)`, close to the
midpoint sample of the first part's edge, plus a far-away mate. -/
def partC2b : PartG := ⟨[(4, 3), (4, 50)], [⟨0, 1, 2209⟩], (-25, -25), (25, 25)⟩

/-! ### The assembled Level and its queries (level.rs:236-369) -/

/-- The immutable assembled level (`Level`): graph nodes and edges, the
terrain spatial index, bounds and scale.  The height/biome grids are handled
separately (see the field-rasterizer section). -/
structure LevelM where
  nodes : List Pt
  edges : List Edge
  kd : List KdEntry
  bmin : Pt
  bmax : Pt
  scale : ℚ

/-- Model of `LevelBuilder::build` (level.rs:601-615): the graph, index and bounds are
moved into the level unchanged. -/
def mkLevel (st : BState) (scale : ℚ) : LevelM :=
  ⟨st.nodes, st.edges, st.kd, st.bmin, st.bmax, scale⟩

/-- Model of `Level::nearest_id_terrain`: payloads of the `count` index entries
nearest to the query point. -/
def nearestIdTerrain (lvl : LevelM) (count : ℕ) (p : Pt) : List ℕ :=
  (nearestN lvl.kd count p).map Nbr.item

/-- Model of `Level::nearest_terrain`: the node positions looked up from the nearest
index entries' payloads (`node_weight`, an `Option`). -/
def nearestTerrain (lvl : LevelM) (count : ℕ) (p : Pt) : List (Option Pt) :=
  (nearestIdTerrain lvl count p).map fun i => lvl.nodes.get? i

/-- The part of the C5 counterexample: two nodes 10 apart joined by an edge;
its rasterization yields index entries `(0,0) ↦ 0`, `(5,0) ↦ 1`,
`(10,0) ↦ 1`. -/
def partC5 : PartG := ⟨[(0, 0), (10, 0)], [⟨0, 1, 100⟩], (-25, -25), (25, 25)⟩

/-! ### World-to-grid coordinate mapping (level.rs:252-276, 485-497)

`Level::biome` maps the world position through `world_to_texture` — clamping
to `[0, texture_size - 1]` — truncates to unsigned integers (`as_uvec2`) and
indexes the biome grid; the grid dimensions come from truncating the SCALED
BOUNDS to integers (`as_ivec2`, toward zero) and subtracting.
`Level::height` maps through `world_to_uv` — clamping to `[0, 1]` — and
samples bilinearly, which cannot leave the grid for uv in the unit square. -/

/-- Rust `f32 as i32`: truncation toward zero. -/
def ratTrunc (q : ℚ) : ℤ := if 0 ≤ q then ⌊q⌋ else -⌊-q⌋

/-- Rust `f32 as u32`: truncation toward zero, saturating at 0 (negative
inputs give 0). -/
def ratToNat (q : ℚ) : ℕ := ⌊q⌋.toNat

/-- Model of `Level::texture_size` = `scale * bounds.size()`. -/
def textureSize (lvl : LevelM) : Pt :=
  (lvl.scale * (lvl.bmax.1 - lvl.bmin.1), lvl.scale * (lvl.bmax.2 - lvl.bmin.2))

/-- Model of `Level::world_to_texture`: `((p - bounds.min) * scale)` clamped to
`[0, texture_size - 1]` componentwise (glam clamp is `max` then `min`). -/
def worldToTexture (lvl : LevelM) (p : Pt) : Pt :=
  (min (max ((p.1 - lvl.bmin.1) * lvl.scale) 0) ((textureSize lvl).1 - 1),
    min (max ((p.2 - lvl.bmin.2) * lvl.scale) 0) ((textureSize lvl).2 - 1))

/-- Model of `Level::world_to_uv`: `(p - bounds.min)` clamped to `[0, size]`, divided
by `size`. -/
def worldToUv (lvl : LevelM) (p : Pt) : Pt :=
  (min (max (p.1 - lvl.bmin.1) 0) (lvl.bmax.1 - lvl.bmin.1) / (lvl.bmax.1 - lvl.bmin.1),
    min (max (p.2 - lvl.bmin.2) 0) (lvl.bmax.2 - lvl.bmin.2) / (lvl.bmax.2 - lvl.bmin.2))

/-- The grid index `Level::biome` reads (`world_to_texture(...).as_uvec2()`). -/
def biomeIndex (lvl : LevelM) (p : Pt) : ℕ × ℕ :=
  (ratToNat (worldToTexture lvl p).1, ratToNat (worldToTexture lvl p).2)

def biomeDims (lvl : LevelM) : ℕ × ℕ :=
  ((ratTrunc (lvl.bmax.1 * lvl.scale) - ratTrunc (lvl.bmin.1 * lvl.scale)).toNat,
    (ratTrunc (lvl.bmax.2 * lvl.scale) - ratTrunc (lvl.bmin.2 * lvl.scale)).toNat)

/-- In-bounds predicate for the biome lookup: `ImageBuffer::get_pixel`
panics unless the index is below the grid dimensions. -/
def biomeInBounds (lvl : LevelM) (p : Pt) : Prop :=
  (biomeIndex lvl p).1 < (biomeDims lvl).1 ∧ (biomeIndex lvl p).2 < (biomeDims lvl).2

/-- A legal single-point part whose bounds have half-extent 25 (a zero-size
part plus the builder's fixed gap). -/
def partC4 : PartG := ⟨[(0, 0)], [], (-25, -25), (25, 25)⟩

/-- A legal single-point part of size 1.2 x 1.2: half-extent 25.6. -/
def partC4frac : PartG :=
  ⟨[(0, 0)], [], (-128 / 5, -128 / 5), (128 / 5, 128 / 5)⟩

/-! ### Field rasterizer: the height map (`LevelBuilder::height_map`,
level.rs:520-569)

The source rasterizes every graph edge into a binary mask, computes the
exact squared Euclidean distance transform
(`imageproc::euclidean_squared_distance_transform`: per cell, the minimum
squared distance to a foreground cell), and applies the per-cell formula
with the biome-radius channel.  The mask is taken abstractly as the list of
its foreground cells (the claim is about the per-cell formula given the
rasterized mask). -/

/-- Squared Euclidean distance between two grid cells. -/
def sqDistZ (p q : ℤ × ℤ) : ℤ := (p.1 - q.1) ^ 2 + (p.2 - q.2) ^ 2

/-- The squared distance transform at a cell: the minimum squared distance
to a foreground (white) cell.  (An empty mask is out of the claim's scope:
the source's transform saturates there; the theorems assume foreground
exists.) -/
def sdt (white : List (ℤ × ℤ)) (c : ℤ × ℤ) : ℤ :=
  match white with
  | [] => 0
  | w :: ws => ws.foldl (fun acc p => min acc (sqDistZ c p)) (sqDistZ c w)

open Classical in
/-- The per-cell value stored by `LevelBuilder::height_map`: with
`dist = sqrt(sdt) / scale` and the local biome `radius`,
`road_width = 0.25 * radius`, `max_height = 0.5 * radius - road_width`; the
value is `dist - road_width` below `road_width` and
`3 * (dist - road_width) / max_height^0.75` beyond. -/
noncomputable def heightMapValue (white : List (ℤ × ℤ)) (radius scale : ℚ) (c : ℤ × ℤ) : ℝ :=
  let dist : ℝ := Real.sqrt ((sdt white c : ℤ) : ℝ) / (scale : ℝ)
  let road_width : ℝ := 0.25 * (radius : ℝ)
  let max_height : ℝ := 0.5 * (radius : ℝ) - road_width
  if dist < road_width then dist - road_width
  else 3 * (dist - road_width) / max_height ^ (0.75 : ℝ)

open Classical in
/-- The height curve as the spec words it, as a function of the distance `d`
to the nearest rasterized edge and the local biome radius `r`. -/
noncomputable def specHeightValue (d r : ℝ) : ℝ :=
  let road_width := 0.25 * r
  let max_height := 0.5 * r - road_width
  if d < road_width then d - road_width
  else 3 * (d - road_width) / max_height ^ (0.75 : ℝ)

/-! ### Point sampler (`LevelPartBuilder`, level.rs:152-226)

`estimate_radius` derives the Poisson-disk separation radius analytically;
`build` samples `[0, width] x [0, height]` through the external
`fast_poisson` crate (whose contract is that samples are pairwise at least
the radius apart and inside the rectangle) and shifts every sample by
`(-width/2, -height/2)`. -/

/-- Model of `LevelPartBuilder::estimate_radius`:
`sqrt(2 * width * height / (e * count))`. -/
noncomputable def estimateRadius (width height : ℚ) (count : ℕ) : ℝ :=
  Real.sqrt (2 * (width : ℝ) * (height : ℝ) / (Real.exp 1 * (count : ℝ)))

/-- The point set produced by `LevelPartBuilder::build` from the sampler
output: every sample shifted so the sampled rectangle is centered at the
origin. -/
def partPoints (width height : ℚ) (sample : List Pt) : List Pt :=
  sample.map fun p => (p.1 - width / 2, p.2 - height / 2)

/-! ### Walkability (`Level::can_walk`, level.rs:323-337)

The walk marches from `from` toward `to` in steps of the local corridor
half-width `-height(from)`; it succeeds when the remaining distance fits in
one step and fails when the local width drops below the requested radius.
The model uses real coordinates (the direction is a unit vector) and a fuel
parameter bounding the number of iterations; the claims below do not depend
on the fuel. -/

/-- Real-valued 2D point. -/
abbrev PtR := ℝ × ℝ

open Classical in
/-- glam's `try_normalize`: `none` for the zero vector (the non-finite cases
of `f32` have no counterpart in the real model), otherwise the unit vector. -/
noncomputable def tryNormalize (v : PtR) : Option PtR :=
  if v = (0, 0) then none
  else some (v.1 / Real.sqrt (v.1 ^ 2 + v.2 ^ 2), v.2 / Real.sqrt (v.1 ^ 2 + v.2 ^ 2))

open Classical in
/-- The march loop of `can_walk` (level.rs:327-336), with fuel.  Exhausted
fuel returns `false`; no theorem below depends on the fuel branch. -/
noncomputable def canWalkGo (height : PtR → ℝ) (dir dst : PtR) (radius : ℝ) :
    ℕ → PtR → Bool
  | 0, _ => false
  | fuel + 1, pos =>
    let maxStep := -height pos
    if Real.sqrt ((pos.1 - dst.1) ^ 2 + (pos.2 - dst.2) ^ 2) ≤ maxStep then true
    else if maxStep < radius then false
    else canWalkGo height dir dst radius fuel
      (pos.1 + dir.1 * maxStep, pos.2 + dir.2 * maxStep)

/-- Model of `Level::can_walk`: `true` immediately when the direction cannot be
normalized, else the march loop. -/
noncomputable def canWalk (height : PtR → ℝ) (fuel : ℕ) (src dst : PtR) (radius : ℝ) :
    Bool :=
  match tryNormalize (dst.1 - src.1, dst.2 - src.2) with
  | none => true
  | some dir => canWalkGo height dir dst radius fuel src

theorem sqDist_nonneg (p q : Pt) : 0 ≤ sqDist p q := by
  have h1 : (0:ℚ) ≤ (p.1 - q.1) ^ 2 := sq_nonneg _
  have h2 : (0:ℚ) ≤ (p.2 - q.2) ^ 2 := sq_nonneg _
  simpa [sqDist] using add_nonneg h1 h2

/-- Squared distances are translation invariant. -/
theorem sqDist_translate (p q o : Pt) :
    sqDist (p.1 + o.1, p.2 + o.2) (q.1 + o.1, q.2 + o.2) = sqDist p q := by
  simp only [sqDist]
  ring

theorem insertSorted_perm (le : α → α → Bool) (a : α) (l : List α) :
    List.Perm (insertSorted le a l) (a :: l) := by
  induction l with
  | nil => simp [insertSorted]
  | cons b bs ih =>
    by_cases h : le a b = true
    · simp [insertSorted, h]
    · simp only [insertSorted, h, if_false]
      exact (ih.cons b).trans (List.Perm.swap a b bs)

theorem isort_perm (le : α → α → Bool) (l : List α) : List.Perm (isort le l) l := by
  induction l with
  | nil => simp [isort]
  | cons a as ih => exact (insertSorted_perm le a (isort le as)).trans (ih.cons a)

theorem isort_length (le : α → α → Bool) (l : List α) : (isort le l).length = l.length :=
  (isort_perm le l).length_eq

theorem mem_isort {le : α → α → Bool} {a : α} {l : List α} :
    a ∈ isort le l ↔ a ∈ l := (isort_perm le l).mem_iff

theorem insertSorted_pairwise {le : α → α → Bool}
    (htot : ∀ a b, le a b = true ∨ le b a = true)
    (htrans : ∀ a b c, le a b = true → le b c = true → le a c = true)
    {a : α} {l : List α}
    (hl : l.Pairwise (fun x y => le x y = true)) :
    (insertSorted le a l).Pairwise (fun x y => le x y = true) := by
  induction l with
  | nil => simp [insertSorted]
  | cons b bs ih =>
    rcases List.pairwise_cons.mp hl with ⟨hb, hbs⟩
    by_cases h : le a b = true
    · simp only [insertSorted, h, if_true]
      refine List.pairwise_cons.mpr ⟨?_, hl⟩
      intro x hx
      rcases List.mem_cons.mp hx with hx | hx
      · rw [hx]; exact h
      · exact htrans a b x h (hb x hx)
    · simp only [insertSorted, h, if_false]
      refine List.pairwise_cons.mpr ⟨?_, ih hbs⟩
      intro x hx
      have hx' := (insertSorted_perm le a bs).mem_iff.mp hx
      rcases List.mem_cons.mp hx' with hx' | hx'
      · rcases htot a b with hab | hba
        · exact absurd hab h
        · rw [hx']; exact hba
      · exact hb x hx'

theorem isort_pairwise {le : α → α → Bool}
    (htot : ∀ a b, le a b = true ∨ le b a = true)
    (htrans : ∀ a b c, le a b = true → le b c = true → le a c = true)
    (l : List α) :
    (isort le l).Pairwise (fun x y => le x y = true) := by
  induction l with
  | nil => simp [isort]
  | cons a as ih => exact insertSorted_pairwise htot htrans ih

theorem half_euclDist_eq (a b : Pt) :
    euclDist a b / 2 = Real.sqrt ((sqDist a b : ℚ) / 4 : ℚ) := by
  have h0 : (0:ℝ) ≤ ((sqDist a b : ℚ) : ℝ) := by
    exact_mod_cast sqDist_nonneg a b
  have h4 : Real.sqrt 4 = 2 := by
    rw [show (4:ℝ) = 2 ^ 2 by norm_num, Real.sqrt_sq (by norm_num : (0:ℝ) ≤ 2)]
  rw [show (((sqDist a b : ℚ) / 4 : ℚ) : ℝ) = ((sqDist a b : ℚ) : ℝ) / 4 by push_cast; ring,
    Real.sqrt_div h0, h4, euclDist]

/-- The source's Euclidean comparison is the model's squared comparison. -/
theorem euclDist_le_half_iff (m p a b : Pt) :
    euclDist m p ≤ euclDist a b / 2 ↔ sqDist m p ≤ sqDist a b / 4 := by
  rw [half_euclDist_eq, euclDist,
    Real.sqrt_le_sqrt_iff (by exact_mod_cast div_nonneg (sqDist_nonneg a b) (by norm_num))]
  exact_mod_cast Iff.rfl

theorem euclDist_lt_half_iff (m p a b : Pt) :
    euclDist m p < euclDist a b / 2 ↔ sqDist m p < sqDist a b / 4 := by
  rw [half_euclDist_eq, euclDist,
    Real.sqrt_lt_sqrt_iff (by exact_mod_cast sqDist_nonneg m p)]
  exact_mod_cast Iff.rfl

theorem gabrielMarked_iff_closed (g : WGraph) (e : Edge) :
    gabrielMarked g e = true ↔ closedInDiametral g e := by
  simp only [gabrielMarked, List.any_eq_true, List.mem_range, Bool.and_eq_true,
    decide_eq_true_eq, closedInDiametral, euclDist_le_half_iff]
  constructor
  · rintro ⟨k, hk, ⟨hs, ht⟩, hd⟩
    exact ⟨k, hk, hs, ht, hd⟩
  · rintro ⟨k, hk, hs, ht, hd⟩
    exact ⟨k, hk, ⟨hs, ht⟩, hd⟩

/-- C6 counterexample: the edge between nodes 0 and 1 of `G6` IS removed by
the Gabriel step, although no node lies strictly inside its diametral circle
(node 2 is exactly on the boundary).  The source's check at level.rs:78 is
`mid.distance(point) <= radius`, not a strict comparison, so boundary points
DO cause removal, contradicting the claim. -/
theorem gabriel_strict_claim_false :
    Edge.mk 0 1 4 ∈ G6.edges ∧ Edge.mk 0 1 4 ∉ (gabrielOf G6).edges ∧
      ¬ strictInDiametral G6 (Edge.mk 0 1 4) := by
  refine ⟨by simp [G6], ?_, ?_⟩
  · have hmark : gabrielMarked G6 ⟨0, 1, 4⟩ = true := by
      simp only [gabrielMarked, List.any_eq_true, List.mem_range]
      refine ⟨2, by norm_num [G6], ?_⟩
      norm_num [G6, nodeAt, midPt, sqDist]
    simp [gabrielOf, List.mem_filter, hmark]
  · rintro ⟨k, hk, hs, ht, hd⟩
    rw [euclDist_lt_half_iff] at hd
    have hk3 : k < 3 := by simpa [G6] using hk
    interval_cases k
    · exact hs rfl
    · exact ht rfl
    · norm_num [G6, nodeAt, midPt, sqDist] at hd

/-- C6 amended: in the Gabriel step a Delaunay edge is removed if and only if
some node other than its two endpoints lies inside or ON its closed diametral
disk (the comparison with the circle radius is non-strict). -/
theorem gabriel_uses_closed_disk (g : WGraph) (e : Edge) (he : e ∈ g.edges) :
    e ∉ (gabrielOf g).edges ↔ closedInDiametral g e := by
  rw [← gabrielMarked_iff_closed]
  simp [gabrielOf, List.mem_filter, he]

/-- Witness for `gabriel_uses_closed_disk` at a concrete graph and edge. -/
theorem gabriel_uses_closed_disk_witness :
    Edge.mk 1 2 2 ∈ G6.edges ∧
      (Edge.mk 1 2 2 ∉ (gabrielOf G6).edges ↔ closedInDiametral G6 (Edge.mk 1 2 2)) := by
  have hm : Edge.mk 1 2 2 ∈ G6.edges := by simp [G6]
  exact ⟨hm, gabriel_uses_closed_disk G6 _ hm⟩

/-- C7 counterexample: half-edge 0 of a single triangle has the sentinel as
twin, yet it is NOT skipped by the source's loop — the source keeps exactly
the half-edges whose twin is smaller or the sentinel and skips the others,
which is the opposite of the claimed criterion.  (Were the claimed criterion
used, all three hull edges would be skipped; the source inserts all three.) -/
theorem delaunay_skip_claim_false :
    heTwin he3 0 = EMPTY ∧ heSkip he3 0 = false ∧
      (delaunayOf [(0, 0), (1, 0), (0, 1)] tri3 he3).edges.map canonPair =
        [(0, 1), (1, 2), (0, 2)] := by
  refine ⟨by decide, by decide, ?_⟩
  simp only [delaunayOf, tri3, he3]
  norm_num [heSkip, heTwin, nextHalfedge, EMPTY, canonPair, canonN,
    List.filter, List.range_succ]

/-- Counting helper: a list without duplicates contains exactly one element
satisfying a predicate that singles out a member. -/
theorem countP_eq_one_of_nodup {p : ℕ → Bool} {l : List ℕ} (hnd : l.Nodup) {m : ℕ}
    (hm : m ∈ l) (hpm : p m = true) (huniq : ∀ x ∈ l, p x = true → x = m) :
    l.countP p = 1 := by
  induction l with
  | nil => cases hm
  | cons a as ih =>
    rcases List.nodup_cons.mp hnd with ⟨hna, hnd'⟩
    by_cases ham : a = m
    · subst ham
      rw [List.countP_cons_of_pos p as hpm]
      have hz : as.countP p = 0 := by
        rw [List.countP_eq_zero]
        intro x hx hpx
        exact hna ((huniq x (List.mem_cons_of_mem a hx) hpx) ▸ hx)
      omega
    · have hpa : ¬ p a = true := fun hpa => ham (huniq a (List.mem_cons_self a as) hpa)
      rw [List.countP_cons_of_neg p as hpa]
      have hm' : m ∈ as := by
        rcases List.mem_cons.mp hm with h | h
        · exact absurd h.symm ham
        · exact h
      exact ih hnd' hm' fun x hx hpx => huniq x (List.mem_cons_of_mem a hx) hpx

/-- C7 amended: a half-edge is skipped exactly when its twin exists (is not
the sentinel) and has a LARGER index; consequently, under the well-formedness
of delaunator output, every undirected Delaunay edge — including convex-hull
edges, whose single half-edge has the sentinel twin — is inserted into the
graph exactly once, weighted by the Euclidean distance between its endpoint
positions (stored squared in the model). -/
theorem delaunay_halfedge_dedup (points : List Pt) (triangles halfedges : List ℕ)
    (w : HeWf triangles halfedges) :
    (∀ i < triangles.length,
      (heSkip halfedges i = true ↔ heTwin halfedges i ≠ EMPTY ∧ i < heTwin halfedges i)) ∧
    (∀ i < triangles.length,
      (delaunayOf points triangles halfedges).edges.countP
        (fun e => decide (canonPair e = ePair triangles i)) = 1) ∧
    (∀ e ∈ (delaunayOf points triangles halfedges).edges,
      e.w2 = sqDist (points.getD e.src (0, 0)) (points.getD e.tgt (0, 0))) := by
  have hskip : ∀ i < triangles.length,
      (heSkip halfedges i = true ↔ heTwin halfedges i ≠ EMPTY ∧ i < heTwin halfedges i) := by
    intro i hi
    rcases w.htw i hi with hEi | ⟨hlt, hne, _, _⟩
    · simp [heSkip, hEi]
    · have hne' : heTwin halfedges i ≠ EMPTY := Nat.ne_of_lt (lt_trans hlt w.hE)
      simp only [heSkip, Bool.and_eq_true, decide_eq_true_eq]
      constructor
      · rintro ⟨h1, h2⟩
        exact ⟨h2, lt_of_le_of_ne h1 fun h => hne h.symm⟩
      · rintro ⟨h2, h1⟩
        exact ⟨le_of_lt h1, h2⟩
  refine ⟨hskip, ?_, ?_⟩
  · intro i hi
    have hcount :
        (delaunayOf points triangles halfedges).edges.countP
            (fun e => decide (canonPair e = ePair triangles i)) =
          (List.range halfedges.length).countP
            (fun j => decide (ePair triangles j = ePair triangles i) &&
              !heSkip halfedges j) := by
      simp only [delaunayOf, List.countP_map, List.countP_filter]
      rfl
    rw [hcount]
    have hiL : i < halfedges.length := by rw [w.hlen]; exact hi
    have hiE : i ≠ EMPTY := Nat.ne_of_lt (lt_trans hi w.hE)
    rcases w.htw i hi with hEi | ⟨hlt, hne, hinv, hpair⟩
    · refine countP_eq_one_of_nodup (List.nodup_range _) (List.mem_range.mpr hiL) ?_ ?_
      · simp [heSkip, hEi]
      · intro x hx hpx
        simp only [Bool.and_eq_true, decide_eq_true_eq, Bool.not_eq_true'] at hpx
        have hxL : x < triangles.length := by rw [← w.hlen]; exact List.mem_range.mp hx
        rcases w.hinj i hi x hxL hpx.1.symm with h | h
        · exact h
        · exfalso
          have hxE : x < EMPTY := lt_trans hxL w.hE
          rw [h.trans hEi] at hxE
          exact lt_irrefl EMPTY hxE
    · have hne' : heTwin halfedges i ≠ EMPTY := Nat.ne_of_lt (lt_trans hlt w.hE)
      have htL : heTwin halfedges i < halfedges.length := by rw [w.hlen]; exact hlt
      rcases hne.lt_or_lt with hti | hit
      · -- the twin is smaller: half-edge i itself is the kept one
        refine countP_eq_one_of_nodup (List.nodup_range _) (List.mem_range.mpr hiL) ?_ ?_
        · simp [heSkip, not_le.mpr hti]
        · intro x hx hpx
          simp only [Bool.and_eq_true, decide_eq_true_eq, Bool.not_eq_true'] at hpx
          have hxL : x < triangles.length := by rw [← w.hlen]; exact List.mem_range.mp hx
          rcases w.hinj i hi x hxL hpx.1.symm with h | h
          · exact h
          · exfalso
            have : heSkip halfedges x = true := by
              rw [h]
              simp [heSkip, hinv, le_of_lt hti, hiE]
            rw [hpx.2] at this
            cases this
      · -- the twin is larger: the twin is the kept one
        refine countP_eq_one_of_nodup (List.nodup_range _)
          (List.mem_range.mpr htL) ?_ ?_
        · simp [hpair, heSkip, hinv, not_le.mpr hit]
        · intro x hx hpx
          simp only [Bool.and_eq_true, decide_eq_true_eq, Bool.not_eq_true'] at hpx
          have hxL : x < triangles.length := by rw [← w.hlen]; exact List.mem_range.mp hx
          rcases w.hinj i hi x hxL hpx.1.symm with h | h
          · exfalso
            have : heSkip halfedges x = true := by
              rw [h]
              simp [heSkip, le_of_lt hit, hne']
            rw [hpx.2] at this
            cases this
          · exact h
  · intro e he
    simp only [delaunayOf, List.mem_map] at he
    obtain ⟨j, _, rfl⟩ := he
    rfl

/-- Witness for `delaunay_halfedge_dedup`: the shared edge of the two
triangles of `tri6` is inserted exactly once. -/
theorem delaunay_halfedge_dedup_witness :
    (delaunayOf [(0, 0), (2, 0), (1, 2), (1, -2)] tri6 he6).edges.countP
      (fun e => decide (canonPair e = ePair tri6 0)) = 1 := by
  refine (delaunay_halfedge_dedup [(0, 0), (2, 0), (1, 2), (1, -2)] tri6 he6
    ⟨by decide, by decide, by decide, by decide⟩).2.1 0 (by decide)

theorem canonPair_setw2 (f : Edge) (x : ℚ) : canonPair { f with w2 := x } = canonPair f := rfl

theorem updateEdge_pairList_of_mem {acc : List Edge} {e : Edge}
    (h : canonPair e ∈ pairList acc) : pairList (updateEdge acc e) = pairList acc := by
  have hany : (acc.any fun f => decide (canonPair f = canonPair e)) = true := by
    simp only [List.any_eq_true, decide_eq_true_eq]
    rcases List.mem_map.mp h with ⟨f, hf, hfe⟩
    exact ⟨f, hf, hfe⟩
  simp only [updateEdge, hany, if_true, pairList, List.map_map]
  refine List.map_congr_left fun f _ => ?_
  by_cases hf : canonPair f = canonPair e
  · simp [Function.comp, hf, canonPair_setw2]
  · simp [Function.comp, hf]

theorem updateEdge_pairList_of_not_mem {acc : List Edge} {e : Edge}
    (h : canonPair e ∉ pairList acc) :
    pairList (updateEdge acc e) = pairList acc ++ [canonPair e] := by
  have hany : (acc.any fun f => decide (canonPair f = canonPair e)) = false := by
    rw [Bool.eq_false_iff]
    intro hc
    rcases List.any_eq_true.mp hc with ⟨f, hf, hfe⟩
    exact h (List.mem_map.mpr ⟨f, hf, decide_eq_true_eq.mp hfe⟩)
  simp [updateEdge, hany, pairList]

theorem updateEdge_length_ge (acc : List Edge) (e : Edge) :
    acc.length ≤ (updateEdge acc e).length := by
  unfold updateEdge
  by_cases h : (acc.any fun f => decide (canonPair f = canonPair e)) = true
  · simp [h]
  · rw [Bool.not_eq_true] at h
    simp [h]

theorem insertEdges_of_le {target : ℕ} {es acc : List Edge} (h : target ≤ acc.length) :
    insertEdges target es acc = acc := by
  cases es <;> simp [insertEdges, h]

theorem insertEdges_length_ge (es : List Edge) :
    ∀ (acc : List Edge) (t : ℕ), acc.length ≤ (insertEdges t es acc).length := by
  induction es with
  | nil => intro acc t; simp [insertEdges]
  | cons e rest ih =>
    intro acc t
    by_cases h : t ≤ acc.length
    · simp [insertEdges, h]
    · simp only [insertEdges, h, if_false]
      exact le_trans (updateEdge_length_ge acc e) (ih (updateEdge acc e) t)

theorem insertEdges_length_mono (es : List Edge) :
    ∀ (acc : List Edge) (t1 t2 : ℕ), t1 ≤ t2 →
      (insertEdges t1 es acc).length ≤ (insertEdges t2 es acc).length := by
  induction es with
  | nil => intro acc t1 t2 _; simp [insertEdges]
  | cons e rest ih =>
    intro acc t1 t2 h12
    by_cases h2 : t2 ≤ acc.length
    · have h1 : t1 ≤ acc.length := le_trans h12 h2
      simp [insertEdges, h1, h2]
    · by_cases h1 : t1 ≤ acc.length
      · simp only [insertEdges, h1, if_true, h2, if_false]
        exact le_trans (updateEdge_length_ge acc e)
          (insertEdges_length_ge rest (updateEdge acc e) t2)
      · simp only [insertEdges, h1, h2, if_false]
        exact ih (updateEdge acc e) t1 t2 h12

/-- Key invariant of the retention loop with target equal to the size of the
goal pair set `G`: starting from a duplicate-free accumulator inside `G`,
with the pending edges inside `G` and `G` covered by accumulator and pending
edges, the loop ends with exactly the pair set `G`. -/
theorem insertEdges_pairs_eq (G : Finset (ℕ × ℕ)) :
    ∀ (pending acc : List Edge),
      (pairList pending).toFinset ⊆ G →
      (pairList acc).Nodup →
      (pairList acc).toFinset ⊆ G →
      (∀ p ∈ G, p ∈ (pairList acc).toFinset ∪ (pairList pending).toFinset) →
      (pairList (insertEdges G.card pending acc)).toFinset = G := by
  intro pending
  induction pending with
  | nil =>
    intro acc _ hnd hsub hcover
    have hGsub : G ⊆ (pairList acc).toFinset := by
      intro p hp
      have := hcover p hp
      simpa [pairList] using this
    exact Finset.Subset.antisymm hsub hGsub
  | cons e rest ih =>
    intro acc hpend hnd hsub hcover
    by_cases hstop : G.card ≤ acc.length
    · rw [insertEdges_of_le hstop]
      refine Finset.eq_of_subset_of_card_le hsub ?_
      have hcard : (pairList acc).toFinset.card = acc.length := by
        rw [List.toFinset_card_of_nodup hnd, pairList, List.length_map]
      rw [hcard]
      exact hstop
    · simp only [insertEdges, hstop, if_false]
      have hrest_sub : (pairList rest).toFinset ⊆ G := by
        refine subset_trans ?_ hpend
        intro p hp
        simp only [pairList, List.map_cons, List.toFinset_cons, Finset.mem_insert]
        right
        exact hp
      by_cases hmem : canonPair e ∈ pairList acc
      · have hpl := updateEdge_pairList_of_mem hmem
        refine ih (updateEdge acc e) hrest_sub (hpl ▸ hnd) (hpl ▸ hsub) ?_
        intro p hp
        rcases Finset.mem_union.mp (hcover p hp) with h | h
        · exact Finset.mem_union_left _ (hpl ▸ h)
        · simp only [pairList, List.map_cons, List.toFinset_cons, Finset.mem_insert] at h
          rcases h with h | h
          · refine Finset.mem_union_left _ (hpl ▸ ?_)
            rw [h]
            exact List.mem_toFinset.mpr hmem
          · exact Finset.mem_union_right _ h
      · have hpl := updateEdge_pairList_of_not_mem hmem
        have heG : canonPair e ∈ G := by
          refine hpend ?_
          simp [pairList]
        have hnd' : (pairList (updateEdge acc e)).Nodup := by
          rw [hpl]
          refine List.Nodup.append hnd (List.nodup_singleton _) ?_
          intro p hp hq
          rcases List.mem_singleton.mp hq with rfl
          exact hmem hp
        have hsub' : (pairList (updateEdge acc e)).toFinset ⊆ G := by
          rw [hpl]
          intro p hp
          rcases List.mem_append.mp (List.mem_toFinset.mp hp) with h | h
          · exact hsub (List.mem_toFinset.mpr h)
          · rw [List.mem_singleton.mp h]
            exact heG
        refine ih (updateEdge acc e) hrest_sub hnd' hsub' ?_
        intro p hp
        rcases Finset.mem_union.mp (hcover p hp) with h | h
        · refine Finset.mem_union_left _ ?_
          rw [hpl]
          simp only [List.toFinset_append, Finset.mem_union]
          left
          exact h
        · simp only [pairList, List.map_cons, List.toFinset_cons, Finset.mem_insert] at h
          rcases h with h | h
          · refine Finset.mem_union_left _ ?_
            rw [hpl]
            simp [h]
          · exact Finset.mem_union_right _ h

theorem buildGraph_edges (g : WGraph) (ratio : ℚ) :
    (buildGraph g ratio).edges =
      insertEdges ((mstOf g).length +
          (⌊ratio * (((sortDescW2 (gabrielOf g).edges).length - (mstOf g).length : ℕ) : ℚ)⌋).toNat)
        (sortDescW2 (gabrielOf g).edges) (mstOf g) := rfl

/-- C3: for a fixed input (Delaunay) graph whose Gabriel subgraph has no
duplicate edges, whose MST has no duplicate edges, and whose MST edges all
appear in the Gabriel subgraph (the classical subset property, which holds
for Delaunay triangulations of points in general position): at fill ratio 0
the output is exactly the MST edge list; at fill ratio 1 the output edge set
is exactly the Gabriel edge set; and the edge count is non-decreasing in the
fill ratio on `[0, 1]`. -/
theorem buildGraph_fill_ratio (g : WGraph)
    (hgnd : (pairList (gabrielOf g).edges).Nodup)
    (hmnd : (pairList (mstOf g)).Nodup)
    (hsub : ∀ p ∈ pairList (mstOf g), p ∈ pairList (gabrielOf g).edges) :
    (buildGraph g 0).edges = mstOf g ∧
    (∀ p : ℕ × ℕ, p ∈ pairList (buildGraph g 1).edges ↔ p ∈ pairList (gabrielOf g).edges) ∧
    (∀ r1 r2 : ℚ, 0 ≤ r1 → r1 ≤ r2 → r2 ≤ 1 →
      (buildGraph g r1).edges.length ≤ (buildGraph g r2).edges.length) := by
  have hall : (sortDescW2 (gabrielOf g).edges).length = (gabrielOf g).edges.length :=
    isort_length _ _
  have hperm : List.Perm (pairList (sortDescW2 (gabrielOf g).edges))
      (pairList (gabrielOf g).edges) := (isort_perm _ _).map canonPair
  have hsubF : (pairList (mstOf g)).toFinset ⊆ (pairList (gabrielOf g).edges).toFinset := by
    intro q hq
    exact List.mem_toFinset.mpr (hsub q (List.mem_toFinset.mp hq))
  have hm_le : (mstOf g).length ≤ (gabrielOf g).edges.length := by
    have h1 : (mstOf g).length = (pairList (mstOf g)).toFinset.card := by
      rw [List.toFinset_card_of_nodup hmnd, pairList, List.length_map]
    have h2 : (gabrielOf g).edges.length = (pairList (gabrielOf g).edges).toFinset.card := by
      rw [List.toFinset_card_of_nodup hgnd, pairList, List.length_map]
    rw [h1, h2]
    exact Finset.card_le_card hsubF
  refine ⟨?_, ?_, ?_⟩
  · rw [buildGraph_edges]
    have h0 : (⌊(0:ℚ) *
        (((sortDescW2 (gabrielOf g).edges).length - (mstOf g).length : ℕ) : ℚ)⌋).toNat = 0 := by
      simp
    rw [h0, Nat.add_zero]
    exact insertEdges_of_le (le_refl _)
  · have hcardG : ((pairList (gabrielOf g).edges).toFinset).card = (gabrielOf g).edges.length := by
      rw [List.toFinset_card_of_nodup hgnd, pairList, List.length_map]
    have htarget : (mstOf g).length +
        (⌊(1:ℚ) * (((sortDescW2 (gabrielOf g).edges).length - (mstOf g).length : ℕ) : ℚ)⌋).toNat =
        ((pairList (gabrielOf g).edges).toFinset).card := by
      rw [one_mul, Int.floor_natCast, Int.toNat_natCast, hcardG, hall]
      omega
    have hpendF : (pairList (sortDescW2 (gabrielOf g).edges)).toFinset =
        (pairList (gabrielOf g).edges).toFinset := by
      apply Finset.ext
      intro q
      simp only [List.mem_toFinset]
      exact hperm.mem_iff
    have hfin := insertEdges_pairs_eq ((pairList (gabrielOf g).edges).toFinset)
      (sortDescW2 (gabrielOf g).edges) (mstOf g)
      (by rw [hpendF]) hmnd hsubF
      (by
        intro q hq
        refine Finset.mem_union_right _ ?_
        rw [hpendF]
        exact hq)
    intro p
    have hedges : pairList (buildGraph g 1).edges =
        pairList (insertEdges (((pairList (gabrielOf g).edges).toFinset).card)
          (sortDescW2 (gabrielOf g).edges) (mstOf g)) := by
      rw [buildGraph_edges, htarget]
    rw [← List.mem_toFinset, ← List.mem_toFinset, hedges, hfin]
  · intro r1 r2 _ hr12 _
    rw [buildGraph_edges, buildGraph_edges]
    apply insertEdges_length_mono
    apply Nat.add_le_add_left
    apply Int.toNat_le_toNat
    apply Int.floor_le_floor
    apply mul_le_mul_of_nonneg_right hr12
    positivity

/-- Witness for `buildGraph_fill_ratio` at the concrete quad graph. -/
theorem buildGraph_fill_ratio_witness :
    (buildGraph GC3 0).edges = mstOf GC3 ∧
      ((0, 3) ∈ pairList (buildGraph GC3 1).edges ↔ (0, 3) ∈ pairList (gabrielOf GC3).edges) ∧
      (buildGraph GC3 (1 / 2)).edges.length ≤ (buildGraph GC3 1).edges.length := by
  have hg : (gabrielOf GC3).edges = [⟨0, 1, 100⟩, ⟨1, 2, 100⟩, ⟨2, 3, 100⟩, ⟨3, 0, 100⟩] := by
    norm_num [gabrielOf, gabrielMarked, GC3, nodeAt, midPt, sqDist, List.filter,
      List.range_succ]
  have hm : mstOf GC3 = [⟨0, 1, 100⟩, ⟨1, 2, 100⟩, ⟨2, 3, 100⟩] := by
    norm_num [mstOf, GC3, sortAscW2, isort, insertSorted, kruskalGo, ufFind, ufUnion,
      List.range_succ]
  have h := buildGraph_fill_ratio GC3
    (by rw [hg]; decide) (by rw [hm]; decide) (by rw [hm, hg]; decide)
  exact ⟨h.1, h.2.1 (0, 3), h.2.2 (1 / 2) 1 (by norm_num) (by norm_num) (by norm_num)⟩

theorem adjacent_symm (edges : List Edge) : Symmetric (adjacent edges) := by
  rintro i j ⟨e, he, h | h⟩
  · exact ⟨e, he, Or.inr h⟩
  · exact ⟨e, he, Or.inl h⟩

theorem connTo_symm {edges : List Edge} {i j : ℕ} (h : connTo edges i j) :
    connTo edges j i := Relation.ReflTransGen.symmetric (adjacent_symm edges) h

theorem connTo_mono {edges edges' : List Edge} (hsub : ∀ e ∈ edges, e ∈ edges')
    {i j : ℕ} (h : connTo edges i j) : connTo edges' i j := by
  refine Relation.ReflTransGen.mono ?_ h
  rintro a b ⟨e, he, hab⟩
  exact ⟨e, hsub e he, hab⟩

theorem connTo_shift {edges : List Edge} (n0 : ℕ) {i j : ℕ} (h : connTo edges i j) :
    connTo (edges.map (shiftE n0)) (i + n0) (j + n0) := by
  refine Relation.ReflTransGen.lift (· + n0) ?_ h
  rintro a b ⟨e, he, hab⟩
  refine ⟨shiftE n0 e, List.mem_map.mpr ⟨e, he, rfl⟩, ?_⟩
  rcases hab with ⟨h1, h2⟩ | ⟨h1, h2⟩
  · exact Or.inl ⟨by simp [shiftE, h1], by simp [shiftE, h2]⟩
  · exact Or.inr ⟨by simp [shiftE, h1], by simp [shiftE, h2]⟩

theorem connTo_eq_of_isolated {es : List Edge} {v w : ℕ}
    (hiso : ∀ e ∈ es, e.src ≠ v ∧ e.tgt ≠ v) (h : connTo es v w) : w = v := by
  rcases Relation.ReflTransGen.cases_head h with h | ⟨c, ⟨e, he, hadj⟩, _⟩
  · exact h.symm
  · rcases hadj with ⟨h1, _⟩ | ⟨_, h2⟩
    · exact absurd h1 (hiso e he).1
    · exact absurd h2 (hiso e he).2

theorem inv_init : Inv initState := by
  refine ⟨?_, ?_, ?_⟩
  · intro i hi
    simp [initState] at hi
  · intro en hen
    simp [initState] at hen
  · intro h
    simp [initState] at h

theorem nearestN_length (kd : List KdEntry) (k : ℕ) (q : Pt) :
    (nearestN kd k q).length = min k kd.length := by
  simp [nearestN, isort_length, List.length_take]

theorem mem_nearestN {kd : List KdEntry} {k : ℕ} {q : Pt} {nb : Nbr}
    (h : nb ∈ nearestN kd k q) :
    ∃ en ∈ kd, nb.item = en.item ∧ nb.d2 = sqDist q en.pos := by
  have h1 : nb ∈ isort (fun a b => decide (a.d2 < b.d2 ∨ (a.d2 = b.d2 ∧ a.item ≤ b.item)))
      (kd.map fun en => { d2 := sqDist q en.pos, item := en.item }) :=
    (List.take_sublist _ _).subset h
  have h2 := mem_isort.mp h1
  rcases List.mem_map.mp h2 with ⟨en, hen, hrfl⟩
  exact ⟨en, hen, by rw [← hrfl], by rw [← hrfl]⟩

theorem mem_closestPairs {st : BState} {offset : Pt} {part : PartG} {pr : Nbr × ℕ}
    (h : pr ∈ closestPairs st offset part) :
    ∃ i < part.nodes.length, pr.2 = i + st.nodes.length ∧
      ∃ en ∈ st.kd, pr.1.item = en.item ∧
        pr.1.d2 = sqDist (translate offset (part.nodes.getD i (0, 0))) en.pos := by
  have h1 := mem_isort.mp h
  rcases List.mem_flatMap.mp h1 with ⟨pi, hpi, hpr⟩
  rcases List.mem_map.mp hpr with ⟨nb, hnb, hrfl⟩
  have hi := List.mem_enum hpi
  refine ⟨pi.1, ?_, ?_, ?_⟩
  · have := hi.1
    simpa using this
  · rw [← hrfl]
  · rcases mem_nearestN hnb with ⟨en, hen, hitem, hd2⟩
    refine ⟨en, hen, ?_, ?_⟩
    · rw [← hrfl]
      exact hitem
    · rw [← hrfl]
      rw [hd2, hi.2]
      have hlen : pi.1 < part.nodes.length := by
        have := hi.1
        simpa using this
      rw [List.getElem_map, ← List.getD_eq_getElem part.nodes (0, 0) hlen]

theorem closestPairs_ne_nil {st : BState} {offset : Pt} {part : PartG}
    (hpn : part.nodes ≠ []) (hkd : st.kd ≠ []) : closestPairs st offset part ≠ [] := by
  have hmapne : part.nodes.map (translate offset) ≠ [] := by
    simpa using hpn
  rcases List.exists_cons_of_ne_nil hmapne with ⟨q0, rest, heq⟩
  have hnbne : nearestN st.kd 2 q0 ≠ [] := by
    have hlen : (nearestN st.kd 2 q0).length = min 2 st.kd.length := nearestN_length _ _ _
    have hkdpos : 0 < st.kd.length := List.length_pos.mpr hkd
    intro hnil
    rw [hnil] at hlen
    simp only [List.length_nil] at hlen
    omega
  rcases List.exists_cons_of_ne_nil hnbne with ⟨nb, nrest, hnb⟩
  have hmem : ((nb, 0 + st.nodes.length) : Nbr × ℕ) ∈ closestPairs st offset part := by
    apply mem_isort.mpr
    apply List.mem_flatMap.mpr
    refine ⟨(0, q0), ?_, ?_⟩
    · rw [heq]
      simp [List.enum_cons]
    · apply List.mem_map.mpr
      refine ⟨nb, ?_, rfl⟩
      rw [hnb]
      exact List.mem_cons_self _ _
  exact List.ne_nil_of_mem hmem

theorem stitchEdges_ne_nil {st : BState} {offset : Pt} {part : PartG}
    (hpn : part.nodes ≠ []) (hkd : st.kd ≠ []) : stitchEdges st offset part ≠ [] := by
  have h : closestPairs st offset part ≠ [] := closestPairs_ne_nil hpn hkd
  unfold stitchEdges
  intro hcontra
  rw [List.map_eq_nil_iff, List.take_eq_nil_iff] at hcontra
  rcases hcontra with h2 | h2
  · exact absurd h2 (by norm_num)
  · exact h h2

theorem mem_kdSamplesEdge_item {s t : Pt} {gs gt : ℕ} {en : KdEntry}
    (h : en ∈ kdSamplesEdge s t gs gt) : en.item = gs ∨ en.item = gt := by
  rcases List.mem_append.mp h with h | h
  · rcases List.mem_map.mp h with ⟨k, _, hrfl⟩
    by_cases hc : 100 * (k : ℚ) ^ 2 < sqDist s t
    · left
      rw [← hrfl]
      simp [hc]
    · right
      rw [← hrfl]
      simp [hc]
  · rw [List.mem_singleton.mp h]
    right
    rfl

theorem kdSamplesEdge_ne_nil (s t : Pt) (gs gt : ℕ) : kdSamplesEdge s t gs gt ≠ [] := by
  simp [kdSamplesEdge]

theorem addPart_nodes_length (st : BState) (offset : Pt) (part : PartG) :
    (addPart st offset part).nodes.length = st.nodes.length + part.nodes.length := by
  simp [addPart]

/-- Adding a well-formed part with at least one edge preserves the assembly
invariant: internal connectivity of the part plus one stitch edge to a valid
node of the old structure keeps the global graph connected. -/
theorem inv_addPart {st : BState} {offset : Pt} {part : PartG}
    (hinv : Inv st) (hg : GoodPart part) (hedge : part.edges ≠ []) :
    Inv (addPart st offset part) := by
  obtain ⟨hconn, hkditem, hkdne⟩ := hinv
  have hsub_old : ∀ e ∈ st.edges, e ∈ (addPart st offset part).edges := by
    intro e he
    simp only [addPart, List.mem_append]
    exact Or.inl (Or.inl he)
  have hsub_part : ∀ e ∈ part.edges.map (shiftE st.nodes.length),
      e ∈ (addPart st offset part).edges := by
    intro e he
    simp only [addPart, List.mem_append]
    exact Or.inl (Or.inr he)
  have hsub_stitch : ∀ e ∈ stitchEdges st offset part, e ∈ (addPart st offset part).edges := by
    intro e he
    simp only [addPart, List.mem_append]
    exact Or.inr he
  refine ⟨?_, ?_, ?_⟩
  · rw [addPart_nodes_length]
    have Lnew : ∀ a < part.nodes.length, ∀ b < part.nodes.length,
        connTo (addPart st offset part).edges (a + st.nodes.length) (b + st.nodes.length) :=
      fun a ha b hb => connTo_mono hsub_part (connTo_shift st.nodes.length (hg.hconn a ha b hb))
    have Lold : ∀ a < st.nodes.length, ∀ b < st.nodes.length,
        connTo (addPart st offset part).edges a b :=
      fun a ha b hb => connTo_mono hsub_old (hconn a ha b hb)
    have Lcross : 0 < st.nodes.length → ∃ a, a < part.nodes.length ∧ ∃ b, b < st.nodes.length ∧
        connTo (addPart st offset part).edges (a + st.nodes.length) b := by
      intro hpos
      have hstne : st.nodes ≠ [] := by
        intro hnil
        rw [hnil] at hpos
        simp at hpos
      have hkdne' : st.kd ≠ [] := hkdne hstne
      have hsne : stitchEdges st offset part ≠ [] := stitchEdges_ne_nil hg.hne hkdne'
      rcases List.exists_cons_of_ne_nil hsne with ⟨e0, erest, heq⟩
      have he0 : e0 ∈ stitchEdges st offset part := by
        rw [heq]
        exact List.mem_cons_self _ _
      rcases List.mem_map.mp he0 with ⟨pr, hpr, hrfl⟩
      have hprc : pr ∈ closestPairs st offset part := (List.take_sublist 2 _).subset hpr
      rcases mem_closestPairs hprc with ⟨i, hi, hpr2, en, hen, hitem, _⟩
      refine ⟨i, hi, en.item, hkditem en hen, ?_⟩
      refine Relation.ReflTransGen.single ⟨e0, hsub_stitch e0 he0, Or.inl ⟨?_, ?_⟩⟩
      · rw [← hrfl]
        simpa using hpr2.symm ▸ (Nat.add_comm st.nodes.length i ▸ rfl)
      · rw [← hrfl, hitem]
    intro i hi j hj
    by_cases ci : i < st.nodes.length <;> by_cases cj : j < st.nodes.length
    · exact Lold i ci j cj
    · have hpos : 0 < st.nodes.length := Nat.pos_of_ne_zero (by omega)
      rcases Lcross hpos with ⟨a, ha, b, hb, hab⟩
      have h1 : connTo (addPart st offset part).edges i b := Lold i ci b hb
      have h2 : connTo (addPart st offset part).edges b (a + st.nodes.length) := connTo_symm hab
      have h3 : connTo (addPart st offset part).edges (a + st.nodes.length) j := by
        have hj' : j - st.nodes.length < part.nodes.length := by omega
        have := Lnew a ha (j - st.nodes.length) hj'
        rwa [Nat.sub_add_cancel (by omega : st.nodes.length ≤ j)] at this
      exact (h1.trans h2).trans h3
    · have hpos : 0 < st.nodes.length := Nat.pos_of_ne_zero (by omega)
      rcases Lcross hpos with ⟨a, ha, b, hb, hab⟩
      have h1 : connTo (addPart st offset part).edges i (a + st.nodes.length) := by
        have hi' : i - st.nodes.length < part.nodes.length := by omega
        have := Lnew (i - st.nodes.length) hi' a ha
        rwa [Nat.sub_add_cancel (by omega : st.nodes.length ≤ i)] at this
      have h2 : connTo (addPart st offset part).edges (a + st.nodes.length) b := hab
      have h3 : connTo (addPart st offset part).edges b j := Lold b hb j cj
      exact (h1.trans h2).trans h3
    · have h1 : connTo (addPart st offset part).edges i j := by
        have hi' : i - st.nodes.length < part.nodes.length := by omega
        have hj' : j - st.nodes.length < part.nodes.length := by omega
        have := Lnew (i - st.nodes.length) hi' (j - st.nodes.length) hj'
        rwa [Nat.sub_add_cancel (by omega : st.nodes.length ≤ i),
          Nat.sub_add_cancel (by omega : st.nodes.length ≤ j)] at this
      exact h1
  · intro en hen
    rw [addPart_nodes_length]
    simp only [addPart, List.mem_append] at hen
    rcases hen with hen | hen
    · exact lt_of_lt_of_le (hkditem en hen) (Nat.le_add_right _ _)
    · rcases List.mem_flatMap.mp hen with ⟨e, he, hsam⟩
      rcases mem_kdSamplesEdge_item hsam with h | h
      · have := (hg.hwf e he).1
        omega
      · have := (hg.hwf e he).2
        omega
  · intro _
    simp only [addPart]
    intro hnil
    rcases List.append_eq_nil.mp hnil with ⟨_, hflat⟩
    rcases List.exists_cons_of_ne_nil hedge with ⟨e, erest, heq⟩
    rw [heq] at hflat
    simp only [List.flatMap_cons] at hflat
    rcases List.append_eq_nil.mp hflat with ⟨hsam, _⟩
    exact kdSamplesEdge_ne_nil _ _ _ _ hsam

/-- C1 amended: a level assembled from parts that are non-empty, have
in-range edge endpoints, are internally connected AND each contain at least
one edge, has a connected global graph.  (The extra at-least-one-edge
requirement is forced: a part without edges contributes nothing to the
spatial index, so a later part cannot stitch to it — see the
counterexample.) -/
theorem assembled_level_connected (parts : List (Pt × PartG))
    (h : ∀ pp ∈ parts, GoodPart pp.2 ∧ pp.2.edges ≠ []) :
    ConnectedG (addAll initState parts).nodes.length (addAll initState parts).edges := by
  have H : ∀ (ps : List (Pt × PartG)) (st : BState),
      (∀ pp ∈ ps, GoodPart pp.2 ∧ pp.2.edges ≠ []) → Inv st → Inv (addAll st ps) := by
    intro ps
    induction ps with
    | nil =>
      intro st _ hst
      exact hst
    | cons pp rest ih =>
      intro st hps hst
      have h0 := hps pp (List.mem_cons_self _ _)
      have hstep : Inv (addPart st pp.1 pp.2) := inv_addPart hst h0.1 h0.2
      simp only [addAll, List.foldl_cons]
      exact ih (addPart st pp.1 pp.2) (fun q hq => hps q (List.mem_cons_of_mem _ hq)) hstep
  exact (H parts initState h inv_init).1

theorem goodPart_partSingle : GoodPart partSingle := by
  refine ⟨by simp [partSingle], ?_, ?_⟩
  · intro e he
    simp [partSingle] at he
  · intro i hi j hj
    simp only [partSingle, List.length_singleton] at hi hj
    have hi0 : i = 0 := by omega
    have hj0 : j = 0 := by omega
    rw [hi0, hj0]
    exact Relation.ReflTransGen.refl

theorem goodPart_partPair : GoodPart partPair := by
  have hadj : adjacent partPair.edges 0 1 := by
    refine ⟨⟨0, 1, 1⟩, by simp [partPair], Or.inl ⟨rfl, rfl⟩⟩
  refine ⟨by simp [partPair], ?_, ?_⟩
  · intro e he
    simp only [partPair, List.mem_singleton] at he
    rw [he]
    exact ⟨by norm_num [partPair], by norm_num [partPair]⟩
  · intro i hi j hj
    have hi2 : i < 2 := by simpa [partPair] using hi
    have hj2 : j < 2 := by simpa [partPair] using hj
    have hcase : (i = 0 ∨ i = 1) ∧ (j = 0 ∨ j = 1) := by omega
    rcases hcase with ⟨hi01 | hi01, hj01 | hj01⟩ <;> rw [hi01, hj01]
    · exact Relation.ReflTransGen.refl
    · exact Relation.ReflTransGen.single hadj
    · exact connTo_symm (Relation.ReflTransGen.single hadj)
    · exact Relation.ReflTransGen.refl

/-- C1 counterexample: both parts are non-empty and internally connected
(each part's graph contains a spanning tree of its nodes), yet the assembled
level is DISCONNECTED: the first part has a single node and no edges, so the
spatial index stays empty and the second part's stitch step finds no
candidate pairs — no cross-part edge is ever created. -/
theorem level_connectivity_claim_false :
    GoodPart partSingle ∧ GoodPart partPair ∧
      ¬ ConnectedG
        (addAll initState [((0, 0), partSingle), ((10, 0), partPair)]).nodes.length
        (addAll initState [((0, 0), partSingle), ((10, 0), partPair)]).edges := by
  refine ⟨goodPart_partSingle, goodPart_partPair, ?_⟩
  have hlen : (addAll initState [((0, 0), partSingle), ((10, 0), partPair)]).nodes.length = 3 := by
    norm_num [addAll, addPart, initState, partSingle, partPair]
  have hedges : (addAll initState [((0, 0), partSingle), ((10, 0), partPair)]).edges =
      [⟨1, 2, 1⟩] := by
    norm_num [addAll, addPart, initState, partSingle, partPair, stitchEdges, closestPairs,
      nearestN, isort, translate, shiftE]
  intro hC
  rw [hlen, hedges] at hC
  have h01 := hC 0 (by norm_num) 1 (by norm_num)
  have h10 := connTo_eq_of_isolated ?_ h01
  · exact absurd h10 (by norm_num)
  · intro e he
    rw [List.mem_singleton.mp he]
    exact ⟨by norm_num, by norm_num⟩

/-- Witness for `assembled_level_connected`: two copies of the two-node part
assemble into a connected level. -/
theorem assembled_level_connected_witness :
    ConnectedG
      (addAll initState [((0, 0), partPair), ((100, 0), partPair)]).nodes.length
      (addAll initState [((0, 0), partPair), ((100, 0), partPair)]).edges := by
  refine assembled_level_connected _ ?_
  intro pp hpp
  rcases List.mem_cons.mp hpp with h | h
  · rw [h]
    exact ⟨goodPart_partPair, by simp [partPair]⟩
  · rw [List.mem_singleton.mp h]
    exact ⟨goodPart_partPair, by simp [partPair]⟩

theorem ratSqrt_natSq (n : ℕ) : ratSqrt ((n : ℚ) ^ 2) = some n := by
  have hq : ((n : ℚ) ^ 2) = ((n ^ 2 : ℕ) : ℚ) := by push_cast; ring
  rw [hq]
  unfold ratSqrt
  rw [Rat.num_natCast, Rat.den_natCast]
  have h1 : ((n ^ 2 : ℕ) : ℤ).toNat = n ^ 2 := Int.toNat_natCast _
  have h2 : (n ^ 2).sqrt = n := by
    rw [pow_two, Nat.sqrt_eq]
  rw [h1, h2]
  have hcond : (0 : ℤ) ≤ (n ^ 2 : ℕ) ∧ ((n : ℤ) * n = (n ^ 2 : ℕ)) ∧
      Nat.sqrt 1 * Nat.sqrt 1 = 1 := by
    refine ⟨by positivity, by push_cast; ring, by norm_num [Nat.sqrt_one]⟩
  rw [if_pos hcond]
  norm_num [Nat.sqrt_one]

theorem sampleKs_natCast (m : ℕ) :
    sampleKs (m : ℚ) = (List.range (m + 1)).filter fun k => decide (25 * k ^ 2 < m) := by
  unfold sampleKs
  rw [Int.ceil_natCast, Int.toNat_natCast]
  refine List.filter_congr fun k _ => ?_
  refine decide_eq_decide.mpr ?_
  constructor
  · intro h
    exact_mod_cast h
  · intro h
    exact_mod_cast h

/-- C2 amended: the stitch step of `LevelBuilder::add` creates no edge when
the spatial index is empty (in particular on the first part); it creates
exactly two edges when the index holds at least two entries and the part has
at least one node; every stitch edge runs from a new node to the node
recorded by some index entry, weighted by the Euclidean distance from the
new node to that entry's SAMPLE position — a point on an already-placed
edge, not necessarily a graph node, so the weight can be less than the
distance between the edge's endpoint nodes (see the counterexample); and
the two edges are the first two of the candidate (new-node, index-sample)
pairs sorted by ascending distance, i.e. the two globally closest pairs. -/
theorem stitch_edges_amended (st : BState) (offset : Pt) (part : PartG) :
    (st.kd = [] → stitchEdges st offset part = []) ∧
    (2 ≤ st.kd.length → part.nodes ≠ [] → (stitchEdges st offset part).length = 2) ∧
    (∀ e ∈ stitchEdges st offset part, ∃ i < part.nodes.length,
      e.src = i + st.nodes.length ∧ ∃ en ∈ st.kd, e.tgt = en.item ∧
        e.w2 = sqDist (translate offset (part.nodes.getD i (0, 0))) en.pos) ∧
    (closestPairs st offset part).Pairwise (fun a b => a.1.d2 ≤ b.1.d2) ∧
    stitchEdges st offset part = ((closestPairs st offset part).take 2).map
      (fun pr => { src := pr.2, tgt := pr.1.item, w2 := pr.1.d2 }) := by
  have hfm : ∀ (l : List (ℕ × Pt)), (l.flatMap fun _ => ([] : List (Nbr × ℕ))) = [] := by
    intro l
    induction l with
    | nil => rfl
    | cons x xs ih =>
      rw [List.flatMap_cons, ih]
      rfl
  refine ⟨?_, ?_, ?_, ?_, rfl⟩
  · intro hkd
    simp [stitchEdges, closestPairs, nearestN, hkd, isort, hfm]
  · intro hkd hpn
    have hmapne : part.nodes.map (translate offset) ≠ [] := by simpa using hpn
    rcases List.exists_cons_of_ne_nil hmapne with ⟨q0, rest, heq⟩
    have hcp : 2 ≤ (closestPairs st offset part).length := by
      simp only [closestPairs, isort_length]
      rw [heq, List.enum_cons, List.flatMap_cons, List.length_append, List.length_map,
        nearestN_length]
      omega
    simp only [stitchEdges, List.length_map, List.length_take]
    omega
  · intro e he
    rcases List.mem_map.mp he with ⟨pr, hpr, hrfl⟩
    have hcp : pr ∈ closestPairs st offset part := (List.take_sublist 2 _).subset hpr
    rcases mem_closestPairs hcp with ⟨i, hi, hpr2, en, hen, hitem, hd2⟩
    refine ⟨i, hi, ?_, en, hen, ?_, ?_⟩
    · rw [← hrfl]
      exact hpr2
    · rw [← hrfl]
      exact hitem
    · rw [← hrfl]
      exact hd2
  · simp only [closestPairs]
    have hp := @isort_pairwise (Nbr × ℕ) cpLE
      (fun a b => by
        simp only [cpLE, decide_eq_true_eq]
        rcases lt_trichotomy a.1.d2 b.1.d2 with h | h | h
        · exact Or.inl (Or.inl h)
        · rcases le_total a.2 b.2 with hi | hi
          · exact Or.inl (Or.inr ⟨h, hi⟩)
          · exact Or.inr (Or.inr ⟨h.symm, hi⟩)
        · exact Or.inr (Or.inl h))
      (fun a b c => by
        simp only [cpLE, decide_eq_true_eq]
        rintro (hab | ⟨hab, hab'⟩) (hbc | ⟨hbc, hbc'⟩)
        · exact Or.inl (lt_trans hab hbc)
        · exact Or.inl (hbc ▸ hab)
        · exact Or.inl (hab ▸ hbc)
        · exact Or.inr ⟨hab.trans hbc, hab'.trans hbc'⟩)
      ((part.nodes.map (translate offset)).enum.flatMap fun pi =>
        (nearestN st.kd 2 pi.2).map fun nb => (nb, pi.1 + st.nodes.length))
    refine hp.imp ?_
    intro a b hab
    simp only [cpLE, decide_eq_true_eq] at hab
    rcases hab with h | ⟨h, _⟩
    · exact le_of_lt h
    · exact le_of_eq h

/-- C2 counterexample: adding `partC2b` to a builder holding `partC2a`
creates the stitch edge from global node 2 (at `(4,3)`) to global node 1 (at
`(10,0)`) with stored weight `sqrt 10` — the distance from `(4,3)` to the
matched index SAMPLE `(5,0)` — which is strictly LESS than the Euclidean
distance `sqrt 45` between the edge's two endpoint nodes, contradicting the
claim that stitch weights equal the endpoint distance and are never less. -/
theorem stitch_weight_claim_false :
    Edge.mk 2 1 10 ∈ (addPart (addPart initState (0, 0) partC2a) (0, 0) partC2b).edges ∧
      (addPart (addPart initState (0, 0) partC2a) (0, 0) partC2b).nodes.get? 2 =
        some (4, 3) ∧
      (addPart (addPart initState (0, 0) partC2a) (0, 0) partC2b).nodes.get? 1 =
        some (10, 0) ∧
      edgeWeight ⟨2, 1, 10⟩ < euclDist (4, 3) (10, 0) := by
  have hsk : sampleKs (100 : ℚ) = [0, 1] := by
    rw [show (100 : ℚ) = ((100 : ℕ) : ℚ) by norm_num, sampleKs_natCast]
    rfl
  have hrs : ratSqrt (100 : ℚ) = some 10 := by
    have h := ratSqrt_natSq 10
    norm_num at h
    exact h
  set st1 := addPart initState (0, 0) partC2a with hst1
  have hkd1 : st1.kd = [⟨(0, 0), 0⟩, ⟨(5, 0), 1⟩, ⟨(10, 0), 1⟩] := by
    rw [hst1]
    norm_num [addPart, initState, partC2a, kdSamplesEdge, translate, sqDist, hsk, hrs,
      samplePos]
  have hnodes1 : st1.nodes = [(0, 0), (10, 0)] := by
    rw [hst1]
    norm_num [addPart, initState, partC2a, translate]
  have hedges1 : st1.edges = [⟨0, 1, 100⟩] := by
    rw [hst1]
    norm_num [addPart, initState, partC2a, stitchEdges, closestPairs, nearestN, isort,
      shiftE, translate]
  have hstitch : stitchEdges st1 (0, 0) partC2b = [⟨2, 1, 10⟩, ⟨2, 0, 25⟩] := by
    simp only [stitchEdges, closestPairs, partC2b, hkd1, hnodes1]
    norm_num [nearestN, isort, insertSorted, cpLE, sqDist, translate, List.enum_cons,
      List.enumFrom]
  have hfin : (addPart st1 (0, 0) partC2b).edges =
      [⟨0, 1, 100⟩, ⟨2, 3, 2209⟩, ⟨2, 1, 10⟩, ⟨2, 0, 25⟩] := by
    show st1.edges ++ partC2b.edges.map (shiftE st1.nodes.length) ++
        stitchEdges st1 (0, 0) partC2b =
      [⟨0, 1, 100⟩, ⟨2, 3, 2209⟩, ⟨2, 1, 10⟩, ⟨2, 0, 25⟩]
    rw [hstitch, hedges1, hnodes1]
    norm_num [partC2b, shiftE]
  have hfinn : (addPart st1 (0, 0) partC2b).nodes = [(0, 0), (10, 0), (4, 3), (4, 50)] := by
    norm_num [addPart, hnodes1, partC2b, translate]
  refine ⟨?_, ?_, ?_, ?_⟩
  · rw [hfin]
    simp
  · rw [hfinn]
    rfl
  · rw [hfinn]
    rfl
  · have h45 : euclDist (4, 3) (10, 0) = Real.sqrt ((45 : ℚ) : ℝ) := by
      rw [euclDist, show sqDist (4, 3) (10, 0) = 45 by norm_num [sqDist]]
    rw [h45, edgeWeight]
    apply Real.sqrt_lt_sqrt
    · positivity
    · norm_num

/-- Witness for `stitch_edges_amended`: on the empty builder the stitch step
is a no-op, and with the three index entries of `partC2a` in place the part
`partC2b` gets exactly two stitch edges. -/
theorem stitch_edges_amended_witness :
    stitchEdges initState (0, 0) partC2a = [] ∧
      (stitchEdges (addPart initState (0, 0) partC2a) (0, 0) partC2b).length = 2 := by
  constructor
  · exact (stitch_edges_amended initState (0, 0) partC2a).1 rfl
  · refine (stitch_edges_amended (addPart initState (0, 0) partC2a) (0, 0) partC2b).2.1 ?_ ?_
    · have hsk : sampleKs (100 : ℚ) = [0, 1] := by
        rw [show (100 : ℚ) = ((100 : ℕ) : ℚ) by norm_num, sampleKs_natCast]
        rfl
      have hrs : ratSqrt (100 : ℚ) = some 10 := by
        have h := ratSqrt_natSq 10
        norm_num at h
        exact h
      have hkd1 : (addPart initState (0, 0) partC2a).kd =
          [⟨(0, 0), 0⟩, ⟨(5, 0), 1⟩, ⟨(10, 0), 1⟩] := by
        norm_num [addPart, initState, partC2a, kdSamplesEdge, translate, sqDist, hsk, hrs,
          samplePos]
      rw [hkd1]
      norm_num
    · simp [partC2b]

/-- C5 amended: `nearest_terrain(k, p)` returns the node positions attached
to the `k` nearest entries of the terrain spatial index — entries sampled
along graph edges and tagged with the nearer endpoint — ordered by distance
to the SAMPLE, with one result per entry: the same node can appear several
times and the result need not be the `k` graph nodes closest to `p`. -/
theorem nearest_terrain_amended (lvl : LevelM) (count : ℕ) (p : Pt) :
    (nearestIdTerrain lvl count p).length = min count lvl.kd.length ∧
    (∀ id ∈ nearestIdTerrain lvl count p, ∃ en ∈ lvl.kd, id = en.item) ∧
    (∃ l, List.Perm l (lvl.kd.map fun en => ({ d2 := sqDist p en.pos, item := en.item } : Nbr)) ∧
      List.Pairwise (fun a b : Nbr => a.d2 ≤ b.d2) l ∧
      nearestTerrain lvl count p = (l.take count).map fun nb => lvl.nodes.get? nb.item) := by
  refine ⟨?_, ?_, ?_⟩
  · simp [nearestIdTerrain, nearestN_length]
  · intro id hid
    rcases List.mem_map.mp hid with ⟨nb, hnb, hrfl⟩
    rcases mem_nearestN hnb with ⟨en, hen, hitem, _⟩
    exact ⟨en, hen, by rw [← hrfl, hitem]⟩
  · refine ⟨isort (fun a b => decide (a.d2 < b.d2 ∨ (a.d2 = b.d2 ∧ a.item ≤ b.item)))
      (lvl.kd.map fun en => { d2 := sqDist p en.pos, item := en.item }), isort_perm _ _, ?_, ?_⟩
    · have hp := @isort_pairwise Nbr
        (fun a b : Nbr => decide (a.d2 < b.d2 ∨ (a.d2 = b.d2 ∧ a.item ≤ b.item)))
        (fun a b => by
          simp only [decide_eq_true_eq]
          rcases lt_trichotomy a.d2 b.d2 with h | h | h
          · exact Or.inl (Or.inl h)
          · rcases le_total a.item b.item with hi | hi
            · exact Or.inl (Or.inr ⟨h, hi⟩)
            · exact Or.inr (Or.inr ⟨h.symm, hi⟩)
          · exact Or.inr (Or.inl h))
        (fun a b c => by
          simp only [decide_eq_true_eq]
          rintro (hab | ⟨hab, hab'⟩) (hbc | ⟨hbc, hbc'⟩)
          · exact Or.inl (lt_trans hab hbc)
          · exact Or.inl (hbc ▸ hab)
          · exact Or.inl (hab ▸ hbc)
          · exact Or.inr ⟨hab.trans hbc, hab'.trans hbc'⟩)
        (lvl.kd.map fun en => { d2 := sqDist p en.pos, item := en.item })
      refine hp.imp ?_
      intro a b hab
      simp only [decide_eq_true_eq] at hab
      rcases hab with h | ⟨h, _⟩
      · exact le_of_lt h
      · exact le_of_eq h
    · simp only [nearestTerrain, nearestIdTerrain, nearestN, List.map_map]
      rfl

/-- C5 counterexample: querying the two nearest terrain nodes from `(6,0)`
returns node 1 TWICE (the index entries `(5,0)` and `(10,0)` are the two
nearest samples and both are tagged with node 1), not the two distinct
closest graph nodes (which are node 1 at `(10,0)`, then node 0 at `(0,0)`). -/
theorem nearest_terrain_claim_false :
    nearestTerrain (mkLevel (addPart initState (0, 0) partC5) 1) 2 (6, 0) =
        [some (10, 0), some (10, 0)] ∧
      (mkLevel (addPart initState (0, 0) partC5) 1).nodes = [(0, 0), (10, 0)] ∧
      ([some ((10 : ℚ), (0 : ℚ)), some (10, 0)] ≠
        [some ((10 : ℚ), (0 : ℚ)), some (0, 0)]) ∧
      sqDist (6, 0) (10, 0) < sqDist (6, 0) (0, 0) := by
  have hsk : sampleKs (100 : ℚ) = [0, 1] := by
    rw [show (100 : ℚ) = ((100 : ℕ) : ℚ) by norm_num, sampleKs_natCast]
    rfl
  have hrs : ratSqrt (100 : ℚ) = some 10 := by
    have h := ratSqrt_natSq 10
    norm_num at h
    exact h
  have hkd1 : (addPart initState (0, 0) partC5).kd =
      [⟨(0, 0), 0⟩, ⟨(5, 0), 1⟩, ⟨(10, 0), 1⟩] := by
    norm_num [addPart, initState, partC5, kdSamplesEdge, translate, sqDist, hsk, hrs,
      samplePos]
  have hnodes1 : (addPart initState (0, 0) partC5).nodes = [(0, 0), (10, 0)] := by
    norm_num [addPart, initState, partC5, translate]
  refine ⟨?_, ?_, by simp, by norm_num [sqDist]⟩
  · simp only [nearestTerrain, nearestIdTerrain, nearestN, mkLevel, hkd1, hnodes1]
    norm_num [isort, insertSorted, sqDist]
  · simp only [mkLevel, hnodes1]

/-- The biome grid dimensions (`LevelBuilder::biome_map`, level.rs:485-494):
the scaled bounds are truncated to integers and subtracted.  (The negative
case of the `i32 -> u32` cast wraps in Rust; it is modelled as 0, which no
theorem relies on.) -/
theorem ratToNat_mono {q r : ℚ} (h : q ≤ r) : ratToNat q ≤ ratToNat r :=
  Int.toNat_le_toNat (Int.floor_le_floor h)

/-- C4 amended: for every world position, `height`'s uv coordinates land in
the unit square (so the bilinear lookup stays inside the grid), and the
clamped `biome` index stays inside the grid PROVIDED the clamp target
`texture_size - 1` truncates below the grid dimensions — a side condition
that holds for well-aligned bounds but can fail (see the counterexample),
because the clamp bound is computed from the exact scaled bounds while the
grid dimensions come from their truncations. -/
theorem height_biome_clamped (lvl : LevelM) (p : Pt)
    (hx : lvl.bmin.1 < lvl.bmax.1) (hy : lvl.bmin.2 < lvl.bmax.2)
    (hcx : ratToNat ((textureSize lvl).1 - 1) < (biomeDims lvl).1)
    (hcy : ratToNat ((textureSize lvl).2 - 1) < (biomeDims lvl).2) :
    (0 ≤ (worldToUv lvl p).1 ∧ (worldToUv lvl p).1 ≤ 1 ∧
      0 ≤ (worldToUv lvl p).2 ∧ (worldToUv lvl p).2 ≤ 1) ∧
    biomeInBounds lvl p := by
  have hsx : 0 < lvl.bmax.1 - lvl.bmin.1 := by linarith
  have hsy : 0 < lvl.bmax.2 - lvl.bmin.2 := by linarith
  simp only [worldToUv]
  refine ⟨⟨?_, ?_, ?_, ?_⟩, ?_, ?_⟩
  · apply div_nonneg _ (le_of_lt hsx)
    exact le_min (le_max_right _ _) (le_of_lt hsx)
  · rw [div_le_one hsx]
    exact min_le_right _ _
  · apply div_nonneg _ (le_of_lt hsy)
    exact le_min (le_max_right _ _) (le_of_lt hsy)
  · rw [div_le_one hsy]
    exact min_le_right _ _
  · exact lt_of_le_of_lt (ratToNat_mono (min_le_right _ _)) hcx
  · exact lt_of_le_of_lt (ratToNat_mono (min_le_right _ _)) hcy

/-- C4 counterexample: for the level assembled from `partC4frac` at offset
`(25, 25)` with scale 1, the bounds are `[-0.6, 50.6]^2`, the biome grid is
50 x 50 (`trunc 50.6 - trunc (-0.6)`), but the clamp bound is
`texture_size - 1 = 50.2`: the world position `(1000, 1000)` is clamped to
`(50.2, 50.2)` and truncated to index `(50, 50)`, which is OUT OF BOUNDS of
the 50 x 50 grid — `Level::biome` would panic there. -/
theorem biome_oob_claim_false :
    ¬ biomeInBounds (mkLevel (addPart initState (25, 25) partC4frac) 1) (1000, 1000) := by
  have hmin : (addPart initState (25, 25) partC4frac).bmin = (-3 / 5, -3 / 5) := by
    norm_num [addPart, initState, partC4frac, minPt, translate, F32MAX]
  have hmax : (addPart initState (25, 25) partC4frac).bmax = (253 / 5, 253 / 5) := by
    norm_num [addPart, initState, partC4frac, maxPt, translate, F32MAX]
  have hidx : biomeIndex (mkLevel (addPart initState (25, 25) partC4frac) 1) (1000, 1000) =
      (50, 50) := by
    simp only [biomeIndex, worldToTexture, textureSize, mkLevel, hmin, hmax]
    norm_num [ratToNat, Int.toNat_ofNat]
    decide
  have hdims : biomeDims (mkLevel (addPart initState (25, 25) partC4frac) 1) = (50, 50) := by
    simp only [biomeDims, mkLevel, hmin, hmax]
    norm_num [ratTrunc, Int.toNat_ofNat]
    decide
  intro hC
  rw [biomeInBounds, hidx, hdims] at hC
  exact absurd hC.1 (lt_irrefl 50)

/-- Witness for `height_biome_clamped` at a level with integer-aligned
bounds `[0, 50]^2` and scale 1, queried far outside the bounds. -/
theorem height_biome_clamped_witness :
    (0 ≤ (worldToUv (mkLevel (addPart initState (25, 25) partC4) 1) (12345, -777)).1 ∧
      (worldToUv (mkLevel (addPart initState (25, 25) partC4) 1) (12345, -777)).1 ≤ 1 ∧
      0 ≤ (worldToUv (mkLevel (addPart initState (25, 25) partC4) 1) (12345, -777)).2 ∧
      (worldToUv (mkLevel (addPart initState (25, 25) partC4) 1) (12345, -777)).2 ≤ 1) ∧
    biomeInBounds (mkLevel (addPart initState (25, 25) partC4) 1) (12345, -777) := by
  have hmin : (addPart initState (25, 25) partC4).bmin = (0, 0) := by
    norm_num [addPart, initState, partC4, minPt, translate, F32MAX]
  have hmax : (addPart initState (25, 25) partC4).bmax = (50, 50) := by
    norm_num [addPart, initState, partC4, maxPt, translate, F32MAX]
  refine height_biome_clamped _ _ ?_ ?_ ?_ ?_
  · rw [mkLevel, hmin, hmax]
    norm_num
  · rw [mkLevel, hmin, hmax]
    norm_num
  · simp only [textureSize, biomeDims, mkLevel, hmin, hmax]
    norm_num [ratToNat, ratTrunc, Int.toNat_ofNat]
  · simp only [textureSize, biomeDims, mkLevel, hmin, hmax]
    norm_num [ratToNat, ratTrunc, Int.toNat_ofNat]

theorem foldl_min_le_init (l : List ℤ) (a : ℤ) : l.foldl min a ≤ a := by
  induction l generalizing a with
  | nil => exact le_refl a
  | cons x xs ih =>
    calc (x :: xs).foldl min a = xs.foldl min (min a x) := by rw [List.foldl_cons]
    _ ≤ min a x := ih (min a x)
    _ ≤ a := min_le_left a x

theorem foldl_min_le_mem {l : List ℤ} {x : ℤ} (hx : x ∈ l) (a : ℤ) : l.foldl min a ≤ x := by
  induction l generalizing a with
  | nil => cases hx
  | cons y ys ih =>
    rw [List.foldl_cons]
    rcases List.mem_cons.mp hx with h | h
    · exact le_trans (foldl_min_le_init ys (min a y)) (h ▸ min_le_right a y)
    · exact ih h (min a y)

theorem foldl_min_attained (l : List ℤ) (a : ℤ) :
    l.foldl min a = a ∨ l.foldl min a ∈ l := by
  induction l generalizing a with
  | nil => exact Or.inl rfl
  | cons x xs ih =>
    rw [List.foldl_cons]
    rcases ih (min a x) with h | h
    · rcases min_cases a x with ⟨hm, _⟩ | ⟨hm, _⟩
      · exact Or.inl (h.trans hm)
      · right
        rw [h.trans hm]
        exact List.mem_cons_self x xs
    · exact Or.inr (List.mem_cons_of_mem x h)

/-- C8: for every cell, every non-empty rasterized mask, every biome radius
and scale, the stored height value equals the spec's formula evaluated at
`d = sqrt(squared distance transform) / scale` and the cell's radius; and
the distance transform is the distance to the NEAREST foreground cell
(a lower bound attained by some foreground cell). -/
theorem height_map_formula (white : List (ℤ × ℤ)) (radius scale : ℚ) (c : ℤ × ℤ)
    (hne : white ≠ []) :
    heightMapValue white radius scale c =
      specHeightValue (Real.sqrt ((sdt white c : ℤ) : ℝ) / (scale : ℝ)) (radius : ℝ) ∧
    (∀ w ∈ white, sdt white c ≤ sqDistZ c w) ∧
    (∃ w ∈ white, sdt white c = sqDistZ c w) := by
  refine ⟨rfl, ?_, ?_⟩
  · intro w hw
    rcases List.exists_cons_of_ne_nil hne with ⟨w0, ws, heq⟩
    rw [heq] at hw ⊢
    show ws.foldl (fun acc p => min acc (sqDistZ c p)) (sqDistZ c w0) ≤ sqDistZ c w
    have hfold : ws.foldl (fun acc p => min acc (sqDistZ c p)) (sqDistZ c w0) =
        (ws.map (sqDistZ c)).foldl min (sqDistZ c w0) := by
      rw [List.foldl_map]
    rw [hfold]
    rcases List.mem_cons.mp hw with h | h
    · exact le_trans (foldl_min_le_init _ _) (le_of_eq (by rw [h]))
    · exact foldl_min_le_mem (List.mem_map_of_mem (sqDistZ c) h) _
  · rcases List.exists_cons_of_ne_nil hne with ⟨w0, ws, heq⟩
    rw [heq]
    show ∃ w ∈ w0 :: ws, ws.foldl (fun acc p => min acc (sqDistZ c p)) (sqDistZ c w0) =
      sqDistZ c w
    have hfold : ws.foldl (fun acc p => min acc (sqDistZ c p)) (sqDistZ c w0) =
        (ws.map (sqDistZ c)).foldl min (sqDistZ c w0) := by
      rw [List.foldl_map]
    rw [hfold]
    rcases foldl_min_attained (ws.map (sqDistZ c)) (sqDistZ c w0) with h | h
    · exact ⟨w0, List.mem_cons_self _ _, h⟩
    · rcases List.mem_map.mp h with ⟨w, hw, hrfl⟩
      exact ⟨w, List.mem_cons_of_mem _ hw, hrfl.symm⟩

/-- Witness for `height_map_formula` at a one-cell mask. -/
theorem height_map_formula_witness :
    heightMapValue [(0, 0)] 8 1 (3, 4) =
      specHeightValue (Real.sqrt ((sdt [(0, 0)] (3, 4) : ℤ) : ℝ) / ((1 : ℚ) : ℝ))
        ((8 : ℚ) : ℝ) ∧
    (∀ w ∈ [((0 : ℤ), (0 : ℤ))], sdt [(0, 0)] (3, 4) ≤ sqDistZ (3, 4) w) ∧
    (∃ w ∈ [((0 : ℤ), (0 : ℤ))], sdt [(0, 0)] (3, 4) = sqDistZ (3, 4) w) :=
  height_map_formula [(0, 0)] 8 1 (3, 4) (by simp)

/-- C9: under the sampler's contract (samples inside the rectangle, pairwise
at least the radius apart), the built point set lies in the rectangle of the
given size centered at the origin and keeps the pairwise separation, and the
radius is exactly `sqrt(2 * width * height / (e * count))` with `e` Euler's
number. -/
theorem part_builder_radius_centering (width height : ℚ) (count : ℕ) (sample : List Pt)
    (_hw : 0 < width) (_hh : 0 < height) (_hc : 1 ≤ count)
    (hdom : ∀ p ∈ sample, 0 ≤ p.1 ∧ p.1 ≤ width ∧ 0 ≤ p.2 ∧ p.2 ≤ height)
    (hsep : sample.Pairwise fun p q =>
      estimateRadius width height count ^ 2 ≤ ((sqDist p q : ℚ) : ℝ)) :
    estimateRadius width height count =
      Real.sqrt (2 * (width : ℝ) * (height : ℝ) / (Real.exp 1 * (count : ℝ))) ∧
    (∀ p ∈ partPoints width height sample, |p.1| ≤ width / 2 ∧ |p.2| ≤ height / 2) ∧
    (partPoints width height sample).Pairwise fun p q =>
      estimateRadius width height count ≤ Real.sqrt ((sqDist p q : ℚ) : ℝ) := by
  refine ⟨rfl, ?_, ?_⟩
  · intro p hp
    rcases List.mem_map.mp hp with ⟨q, hq, hrfl⟩
    rcases hdom q hq with ⟨h1, h2, h3, h4⟩
    rw [← hrfl]
    constructor
    · rw [abs_le]
      constructor <;> simp <;> linarith
    · rw [abs_le]
      constructor <;> simp <;> linarith
  · refine List.Pairwise.map _ ?_ hsep
    intro p q hpq
    have htrans : sqDist (p.1 - width / 2, p.2 - height / 2)
        (q.1 - width / 2, q.2 - height / 2) = sqDist p q := by
      simp only [sqDist]
      ring
    rw [htrans]
    have h0 : 0 ≤ estimateRadius width height count := Real.sqrt_nonneg _
    rw [Real.le_sqrt h0]
    · exact hpq
    · exact_mod_cast sqDist_nonneg p q

/-- Witness for `part_builder_radius_centering` on a two-sample set in the
square of side 2 with a requested count of 1. -/
theorem part_builder_radius_centering_witness :
    estimateRadius 2 2 1 = Real.sqrt (2 * ((2 : ℚ) : ℝ) * ((2 : ℚ) : ℝ) /
        (Real.exp 1 * ((1 : ℕ) : ℝ))) ∧
    (∀ p ∈ partPoints 2 2 [(0, 0), (2, 2)], |p.1| ≤ 2 / 2 ∧ |p.2| ≤ 2 / 2) ∧
    (partPoints 2 2 [(0, 0), (2, 2)]).Pairwise fun p q =>
      estimateRadius 2 2 1 ≤ Real.sqrt ((sqDist p q : ℚ) : ℝ) := by
  refine part_builder_radius_centering 2 2 1 [(0, 0), (2, 2)]
    (by norm_num) (by norm_num) (le_refl 1) ?_ ?_
  · intro p hp
    rcases List.mem_cons.mp hp with h | h
    · rw [h]
      norm_num
    · rw [List.mem_singleton.mp h]
      norm_num
  · refine List.pairwise_cons.mpr ⟨?_, List.pairwise_singleton _ _⟩
    intro q hq
    rw [List.mem_singleton.mp hq]
    have h8 : ((sqDist (0, 0) (2, 2) : ℚ) : ℝ) = 8 := by
      norm_num [sqDist]
    rw [h8, estimateRadius, Real.sq_sqrt (by positivity)]
    have he : (1 : ℝ) ≤ Real.exp 1 := by
      have := Real.add_one_le_exp 1
      linarith
    rw [show ((1 : ℕ) : ℝ) = 1 by norm_num, mul_one]
    calc 2 * ((2 : ℚ) : ℝ) * ((2 : ℚ) : ℝ) / Real.exp 1 = 8 / Real.exp 1 := by norm_num
    _ ≤ 8 := div_le_self (by norm_num) he

/-- C10: whenever the direction from `src` to `dst` cannot be normalized (in
exact arithmetic: the difference is the zero vector, in particular whenever
`src = dst`), `can_walk` returns `true` for EVERY height field, fuel and
radius — the height field is never sampled, even if the radius exceeds the
corridor width at that position. -/
theorem can_walk_degenerate_true (height : PtR → ℝ) (fuel : ℕ) (radius : ℝ) (src dst : PtR)
    (h : dst.1 - src.1 = 0 ∧ dst.2 - src.2 = 0) :
    canWalk height fuel src dst radius = true := by
  unfold canWalk
  rw [show ((dst.1 - src.1, dst.2 - src.2) : PtR) = ((0 : ℝ), (0 : ℝ)) by
    rw [h.1, h.2]]
  rw [tryNormalize, if_pos rfl]

/-- Witness for `can_walk_degenerate_true`: equal endpoints, a height field
making the corridor width 1 everywhere, a radius far larger, zero fuel. -/
theorem can_walk_degenerate_true_witness :
    canWalk (fun _ => -1) 0 (0, 0) (0, 0) 1000 = true :=
  can_walk_degenerate_true (fun _ => -1) 0 1000 (0, 0) (0, 0) ⟨by norm_num, by norm_num⟩

/-- Witness for `nearest_terrain_amended` at the concrete level of
`partC5`. -/
theorem nearest_terrain_amended_witness :
    (nearestIdTerrain (mkLevel (addPart initState (0, 0) partC5) 1) 2 (6, 0)).length =
      min 2 (mkLevel (addPart initState (0, 0) partC5) 1).kd.length :=
  (nearest_terrain_amended (mkLevel (addPart initState (0, 0) partC5) 1) 2 (6, 0)).1

end LevelGen
